import Mathlib

/-!
Shallow embedding of the cash-register change-calculation engine
(TypeScript sources: `src/domain/Currency.ts`, `src/domain/ChangeStrategy.ts`,
`src/domain/ChangeCalculator.ts`, `src/config/currencies.ts`).

Modelling conventions:

* TS `number` values holding integer cent amounts are modelled as `Int`;
  decimal major-unit amounts (batch input) and `Math.random()` values are
  modelled as exact rationals `ℚ`.  Floating-point representation error is out
  of scope; every concrete input evaluated below was chosen so that the exact
  rational computation and the IEEE-double computation agree.
* A JS `Map` is modelled as an insertion-ordered association list: `get` finds
  the first matching key, `set` updates the first occurrence in place when the
  key is present and appends otherwise, `delete` removes the first occurrence.
* The cache key `` `${changeInCents}-${currency.code}` `` is modelled as the
  pair `(changeInCents, currency.code)`: for integer change amounts and the
  dash-free currency codes of the configuration the template string is
  injective in this pair, so the two key spaces coincide on reachable keys.
* The global (possibly monkey-patched) `Math.random` is modelled by
  `RandomSource`: an ambient stream of rationals consumed by index until
  `setupSeededRandom` installs an LCG state, after which draws follow the
  source's LCG `seed = (seed * 9301 + 49297) % 233280; seed / 233280` exactly.
* The float constants `0.6`, `0.9`, `0.7`, `0.5` of the sampling heuristics
  are modelled as the exact rationals they denote; for the small count ranges
  arising in the concrete evaluations below the ceil/floor results agree with
  the IEEE-double computation.
-/

namespace CashRegister

/-- Denomination record from `src/domain/Currency.ts`. -/
structure Denomination where
  name : String
  valueInCents : Int
  symbol : Option String := none
deriving Repr, DecidableEq

/-- Currency record from `src/domain/Currency.ts`. -/
structure Currency where
  code : String
  name : String
  symbol : String
  denominations : List Denomination
deriving Repr, DecidableEq

/-- Transaction record from `src/domain/Currency.ts`. -/
structure Transaction where
  amountOwedInCents : Int
  amountPaidInCents : Int
  changeInCents : Int
deriving Repr, DecidableEq

/-- A JS `Map<string, number>` of denomination counts, as an insertion-ordered
association list. -/
abbrev DenomMap := List (String × Int)

/-- ChangeResult record from `src/domain/Currency.ts`. -/
structure ChangeResult where
  totalChangeInCents : Int
  denominations : DenomMap
  formattedOutput : String
deriving Repr, DecidableEq

/-- SpecialRuleConfig record from `src/domain/Currency.ts`. -/
structure SpecialRuleConfig where
  divisor : Int
  description : String
deriving Repr, DecidableEq

/-- Error taxonomy from `src/domain/Currency.ts` (`InvalidAmountError`,
`InsufficientPaymentError`), carrying the constructor arguments. -/
inductive CashRegisterError where
  | invalidAmount (amount : Int)
  | insufficientPayment (amountOwed amountPaid : Int)
deriving Repr, DecidableEq

/-- Equality of `Except` values is decidable when both component types have
decidable equality (needed to evaluate concrete calculator results). -/
def exceptDecEq {ε α : Type} [DecidableEq ε] [DecidableEq α] :
    (a b : Except ε α) → Decidable (a = b)
  | .error e1, .error e2 =>
    if h : e1 = e2 then isTrue (by rw [h]) else isFalse (fun hh => h (Except.error.inj hh))
  | .error _, .ok _ => isFalse (fun hh => Except.noConfusion hh)
  | .ok _, .error _ => isFalse (fun hh => Except.noConfusion hh)
  | .ok a1, .ok a2 =>
    if h : a1 = a2 then isTrue (by rw [h]) else isFalse (fun hh => h (Except.ok.inj hh))

instance {ε α : Type} [DecidableEq ε] [DecidableEq α] : DecidableEq (Except ε α) :=
  exceptDecEq

/-- JS `Map.prototype.get`: first entry with the given key. -/
def mapLookup {κ α : Type} [DecidableEq κ] (k : κ) : List (κ × α) → Option α
  | [] => none
  | (k₀, v₀) :: rest => if k₀ = k then some v₀ else mapLookup k rest

/-- JS `Map.prototype.set`: update in place when the key is present (keeping
its position), append otherwise. -/
def mapSet {κ α : Type} [DecidableEq κ] (k : κ) (v : α) : List (κ × α) → List (κ × α)
  | [] => [(k, v)]
  | (k₀, v₀) :: rest => if k₀ = k then (k₀, v) :: rest else (k₀, v₀) :: mapSet k v rest

/-- JS `Map.prototype.delete`: remove the entry with the given key. -/
def mapDelete {κ α : Type} [DecidableEq κ] (k : κ) : List (κ × α) → List (κ × α)
  | [] => []
  | (k₀, v₀) :: rest => if k₀ = k then rest else (k₀, v₀) :: mapDelete k rest

/-- Stable insertion of a denomination into a list sorted descending by value;
an incoming element goes after existing elements of greater or equal value. -/
def insertDesc (d : Denomination) : List Denomination → List Denomination
  | [] => [d]
  | e :: es => if d.valueInCents ≤ e.valueInCents then e :: insertDesc d es else d :: e :: es

/-- Stable sort matching `[...denominations].sort((a, b) => b.valueInCents - a.valueInCents)`. -/
def sortByValueDesc (l : List Denomination) : List Denomination :=
  l.foldl (fun acc d => insertDesc d acc) []

/-- The private `pluralize` method (identical in `GreedyChangeStrategy` and
`RandomChangeStrategy`). -/
def pluralize (name : String) : String :=
  if name = "penny" then "pennies" else name ++ "s"

/-- Loop body of the private `formatOutput` method: push `"<count> <name>"`
for every positive count, singular name exactly when the count is 1. -/
def formatParts : DenomMap → List String
  | [] => []
  | (name, count) :: rest =>
    if 0 < count then
      (toString count ++ " " ++ (if count = 1 then name else pluralize name)) :: formatParts rest
    else formatParts rest

/-- The private `formatOutput` method (identical in both strategy classes):
parts joined by `","`. -/
def formatOutput (denominations : DenomMap) : String :=
  String.intercalate "," (formatParts denominations)

/-- Loop of `GreedyChangeStrategy.calculateChange`: largest-first greedy fill,
taking `Math.floor(remainingChange / valueInCents)` units whenever the value
still fits. -/
def greedyLoop : List Denomination → Int → DenomMap → DenomMap × Int
  | [], remaining, acc => (acc, remaining)
  | d :: rest, remaining, acc =>
    if d.valueInCents ≤ remaining then
      let count := Int.fdiv remaining d.valueInCents
      greedyLoop rest (remaining - count * d.valueInCents) (mapSet d.name count acc)
    else greedyLoop rest remaining acc

/-- `GreedyChangeStrategy.calculateChange`. -/
def greedyCalculateChange (transaction : Transaction) (currency : Currency) : ChangeResult :=
  let changeInCents := transaction.changeInCents
  let sorted := sortByValueDesc currency.denominations
  let denominations := (greedyLoop sorted changeInCents []).1
  { totalChangeInCents := changeInCents
    denominations := denominations
    formattedOutput := formatOutput denominations }

/-- `GreedyChangeStrategy.shouldApply`. -/
def greedyShouldApply (t : Transaction) (config : Option SpecialRuleConfig) : Bool :=
  match config with
  | none => true
  | some c => t.changeInCents.tmod c.divisor != 0

/-- `RandomChangeStrategy.shouldApply`. -/
def randomShouldApply (t : Transaction) (config : Option SpecialRuleConfig) : Bool :=
  match config with
  | none => false
  | some c => t.changeInCents.tmod c.divisor == 0

/-- State of the global `Math.random`: an ambient stream consumed by index,
or (after `setupSeededRandom` monkey-patches it) the LCG seed. -/
structure RandomSource where
  seeded : Option Int
  ambient : Nat → ℚ
  idx : Nat

/-- One call of the global `Math.random()`. -/
def mathRandom (w : RandomSource) : ℚ × RandomSource :=
  match w.seeded with
  | some s =>
    let s1 := (s * 9301 + 49297).tmod 233280
    ((s1 : ℚ) / 233280, { w with seeded := some s1 })
  | none => (w.ambient w.idx, { w with idx := w.idx + 1 })

/-- `RandomChangeStrategy.setupSeededRandom`: globally replace `Math.random`
by the LCG seeded with the constructor argument. -/
def setupSeededRandom (randomSeed : Int) (w : RandomSource) : RandomSource :=
  { w with seeded := some randomSeed }

/-- Loop of `generateRandomWithBiasTowardsLarger`: counts drawn from a
60–90 percent window of the locally available maximum, stopping when no change
remains. -/
def genBiasLargerLoop : List Denomination → Int → DenomMap → RandomSource → DenomMap × RandomSource
  | [], _, acc, w => (acc, w)
  | d :: rest, remaining, acc, w =>
    if 0 < remaining then
      let maxCount := Int.fdiv remaining d.valueInCents
      if 0 < maxCount then
        let minBias := ⌈(maxCount : ℚ) * (6 / 10)⌉
        let maxBias := ⌈(maxCount : ℚ) * (9 / 10)⌉
        let rw := mathRandom w
        let count := ⌊rw.1 * ((maxBias : ℚ) - (minBias : ℚ) + 1)⌋ + minBias
        if 0 < count then
          genBiasLargerLoop rest (remaining - min count maxCount * d.valueInCents)
            (mapSet d.name (min count maxCount) acc) rw.2
        else genBiasLargerLoop rest remaining acc rw.2
      else genBiasLargerLoop rest remaining acc w
    else (acc, w)

/-- `RandomChangeStrategy.generateRandomWithBiasTowardsLarger`. -/
def generateRandomWithBiasTowardsLarger (changeInCents : Int) (sorted : List Denomination)
    (w : RandomSource) : DenomMap × RandomSource :=
  genBiasLargerLoop sorted changeInCents [] w

/-- Loop of `generateRandomWithUniformDistribution`: uniform count up to the
locally available maximum. -/
def genUniformLoop : List Denomination → Int → DenomMap → RandomSource → DenomMap × RandomSource
  | [], _, acc, w => (acc, w)
  | d :: rest, remaining, acc, w =>
    if 0 < remaining then
      let maxCount := Int.fdiv remaining d.valueInCents
      if 0 < maxCount then
        let rw := mathRandom w
        let count := ⌊rw.1 * ((maxCount : ℚ) + 1)⌋
        if 0 < count then
          genUniformLoop rest (remaining - count * d.valueInCents) (mapSet d.name count acc) rw.2
        else genUniformLoop rest remaining acc rw.2
      else genUniformLoop rest remaining acc w
    else (acc, w)

/-- `RandomChangeStrategy.generateRandomWithUniformDistribution`. -/
def generateRandomWithUniformDistribution (changeInCents : Int) (sorted : List Denomination)
    (w : RandomSource) : DenomMap × RandomSource :=
  genUniformLoop sorted changeInCents [] w

/-- Loop of `generateRandomWithBiasTowardsSmaller`: processed over the reversed
list, 70 percent chance of using at least half the available maximum; note the
source's `for..of` loop has no `remaining > 0` exit condition. -/
def genBiasSmallerLoop : List Denomination → Int → DenomMap → RandomSource → DenomMap × RandomSource
  | [], _, acc, w => (acc, w)
  | d :: rest, remaining, acc, w =>
    let maxCount := Int.fdiv remaining d.valueInCents
    if 0 < maxCount then
      let rw1 := mathRandom w
      let rw2 := mathRandom rw1.2
      let count :=
        if rw1.1 < 7 / 10 then ⌊rw2.1 * (maxCount : ℚ)⌋ + Int.fdiv maxCount 2
        else ⌊rw2.1 * ((maxCount : ℚ) + 1)⌋
      let actualCount := min count maxCount
      if 0 < actualCount then
        genBiasSmallerLoop rest (remaining - actualCount * d.valueInCents)
          (mapSet d.name actualCount acc) rw2.2
      else genBiasSmallerLoop rest remaining acc rw2.2
    else genBiasSmallerLoop rest remaining acc w

/-- `RandomChangeStrategy.generateRandomWithBiasTowardsSmaller`. -/
def generateRandomWithBiasTowardsSmaller (changeInCents : Int) (sorted : List Denomination)
    (w : RandomSource) : DenomMap × RandomSource :=
  genBiasSmallerLoop sorted.reverse changeInCents [] w

/-- Loop of `RandomChangeStrategy.isValidCombination`, accumulating
`count * valueInCents` over the candidate's entries and failing on an unknown
denomination name. -/
def isValidCombinationLoop (currency : Currency) (target : Int) : DenomMap → Int → Bool
  | [], total => total == target
  | (name, count) :: rest, total =>
    match currency.denominations.find? (fun d => d.name == name) with
    | none => false
    | some d => isValidCombinationLoop currency target rest (total + count * d.valueInCents)

/-- `RandomChangeStrategy.isValidCombination`. -/
def isValidCombination (denominations : DenomMap) (targetAmount : Int) (currency : Currency) : Bool :=
  isValidCombinationLoop currency targetAmount denominations 0

/-- `RandomChangeStrategy.maxAttempts`. -/
def maxAttempts : Nat := 500

/-- The per-heuristic attempt budget `Math.floor(this.maxAttempts / strategies.length)`
with the three sampling heuristics registered. -/
def attemptsPerHeuristic : Nat := maxAttempts / 3

/-- Inner attempt loop of `generateOptimizedRandomCombination` for one
sampling heuristic: generate a candidate, accept the first valid one. -/
def tryAttempts (heuristic : Int → List Denomination → RandomSource → DenomMap × RandomSource)
    (changeInCents : Int) (sorted : List Denomination) (currency : Currency) :
    Nat → RandomSource → Option DenomMap × RandomSource
  | 0, w => (none, w)
  | n + 1, w =>
    let out := heuristic changeInCents sorted w
    if isValidCombination out.1 changeInCents currency then (some out.1, out.2)
    else tryAttempts heuristic changeInCents sorted currency n out.2

/-- `RandomChangeStrategy.generateOptimizedRandomCombination`: the three
heuristics tried in their registration order, each with the split budget. -/
def generateOptimizedRandomCombination (changeInCents : Int) (currency : Currency)
    (w : RandomSource) : Option DenomMap × RandomSource :=
  let sorted := sortByValueDesc currency.denominations
  let a1 := tryAttempts generateRandomWithBiasTowardsLarger changeInCents sorted currency
    attemptsPerHeuristic w
  match a1.1 with
  | some _ => a1
  | none =>
    let a2 := tryAttempts generateRandomWithUniformDistribution changeInCents sorted currency
      attemptsPerHeuristic a1.2
    match a2.1 with
    | some _ => a2
    | none =>
      tryAttempts generateRandomWithBiasTowardsSmaller changeInCents sorted currency
        attemptsPerHeuristic a2.2

/-- Cache key of `RandomChangeStrategy`: the pair underlying the template
string `` `${changeInCents}-${currency.code}` ``. -/
abbrev CacheKey := Int × String

/-- The private cache of `RandomChangeStrategy`. -/
abbrev Cache := List (CacheKey × DenomMap)

/-- `RandomChangeStrategy.maxCacheSize`. -/
def maxCacheSize : Nat := 1000

/-- JS `new Map(result)`: an entry-wise copy, which is the identity in the
pure model. -/
def mapCopy (m : DenomMap) : DenomMap := m

/-- `RandomChangeStrategy.cacheResult`: when at capacity delete the first
(oldest-inserted) key, then store a copy.  The source's `if (firstKey)`
truthiness test fails only for an empty cache (keys produced by
`calculateChange` are never the empty string). -/
def cacheResult (key : CacheKey) (result : DenomMap) (cache : Cache) : Cache :=
  let cache1 :=
    if maxCacheSize ≤ cache.length then
      match cache with
      | [] => cache
      | (firstKey, _) :: _ => mapDelete firstKey cache
    else cache
  mapSet key (mapCopy result) cache1

/-- Mutable state of one `RandomChangeStrategy` instance (its private cache)
together with the global randomness state it draws from. -/
structure RandState where
  cache : Cache
  world : RandomSource

/-- Key construction from change amount and currency code. -/
def mkCacheKey (changeInCents : Int) (code : String) : CacheKey := (changeInCents, code)

/-- `RandomChangeStrategy.calculateChange`: cache hit returns a fresh copy of
the snapshot formatted fresh; otherwise run the randomized search, falling
back to `GreedyChangeStrategy` (uncached) when it fails, caching a success. -/
def randCalculateChange (transaction : Transaction) (currency : Currency) (st : RandState) :
    ChangeResult × RandState :=
  let changeInCents := transaction.changeInCents
  let cacheKey := mkCacheKey changeInCents currency.code
  match mapLookup cacheKey st.cache with
  | some cachedResult =>
    ({ totalChangeInCents := changeInCents
       denominations := mapCopy cachedResult
       formattedOutput := formatOutput cachedResult }, st)
  | none =>
    let gen := generateOptimizedRandomCombination changeInCents currency st.world
    match gen.1 with
    | none => (greedyCalculateChange transaction currency, { st with world := gen.2 })
    | some bestResult =>
      ({ totalChangeInCents := changeInCents
         denominations := bestResult
         formattedOutput := formatOutput bestResult },
       { cache := cacheResult cacheKey bestResult st.cache, world := gen.2 })

/-- Identity of the strategy returned by the factory. -/
inductive StrategyTag where
  | random
  | greedy
deriving Repr, DecidableEq

/-- First-applicable scan of `ChangeStrategyFactory.getStrategy` over the
default registration order `[RandomChangeStrategy, GreedyChangeStrategy]`. -/
def getStrategyFirstApplicable (t : Transaction) (config : Option SpecialRuleConfig) :
    Option StrategyTag :=
  if randomShouldApply t config then some .random
  else if greedyShouldApply t config then some .greedy
  else none

/-- `ChangeStrategyFactory.getStrategy` with the default strategies: first
applicable strategy, `GreedyChangeStrategy` as the absolute fallback. -/
def getStrategy (t : Transaction) (config : Option SpecialRuleConfig) : StrategyTag :=
  (getStrategyFirstApplicable t config).getD .greedy

/-- `ChangeCalculator.validateAmounts`: owed checked first, then paid, then
sufficiency. -/
def validateAmounts (amountOwed amountPaid : Int) : Except CashRegisterError Unit :=
  if amountOwed < 0 then .error (.invalidAmount amountOwed)
  else if amountPaid < 0 then .error (.invalidAmount amountPaid)
  else if amountPaid < amountOwed then .error (.insufficientPayment amountOwed amountPaid)
  else .ok ()

/-- State threaded through `ChangeCalculator` calls: the per-instance
randomized-strategy cache plus the global randomness state. -/
abbrev CalcState := RandState

/-- `ChangeCalculator.calculateChange`: validate, short-circuit on zero
change, otherwise build the transaction, consult the factory and delegate.
A thrown error leaves all strategy-side state untouched. -/
def calculateChange (currency : Currency) (specialRuleConfig : SpecialRuleConfig)
    (amountOwedInCents amountPaidInCents : Int) (st : CalcState) :
    Except CashRegisterError ChangeResult × CalcState :=
  match validateAmounts amountOwedInCents amountPaidInCents with
  | .error e => (.error e, st)
  | .ok _ =>
    let changeInCents := amountPaidInCents - amountOwedInCents
    if changeInCents = 0 then
      (.ok { totalChangeInCents := 0, denominations := [], formattedOutput := "" }, st)
    else
      let transaction : Transaction :=
        { amountOwedInCents := amountOwedInCents
          amountPaidInCents := amountPaidInCents
          changeInCents := changeInCents }
      match getStrategy transaction (some specialRuleConfig) with
      | .random =>
        let out := randCalculateChange transaction currency st
        (.ok out.1, out.2)
      | .greedy => (.ok (greedyCalculateChange transaction currency), st)

/-- JS `Math.round`: round to the nearest integer, ties toward positive
infinity. -/
def mathRound (x : ℚ) : Int := ⌊x + 1 / 2⌋

/-- `ChangeCalculator.processTransactions`: convert each decimal pair to cents
with `Math.round(x * 100)`, compute change in order; a thrown error aborts the
whole batch. -/
def processTransactions (currency : Currency) (specialRuleConfig : SpecialRuleConfig) :
    List (ℚ × ℚ) → CalcState → Except CashRegisterError (List String) × CalcState
  | [], st => (.ok [], st)
  | (amountOwed, amountPaid) :: rest, st =>
    let out := calculateChange currency specialRuleConfig (mathRound (amountOwed * 100))
      (mathRound (amountPaid * 100)) st
    match out.1 with
    | .error e => (.error e, out.2)
    | .ok result =>
      let out2 := processTransactions currency specialRuleConfig rest out.2
      match out2.1 with
      | .error e => (.error e, out2.2)
      | .ok outputs => (.ok (result.formattedOutput :: outputs), out2.2)

/-- `US_DENOMINATIONS` from `src/config/currencies.ts`. -/
def US_DENOMINATIONS : List Denomination :=
  [ { name := "dollar", valueInCents := 100, symbol := some "$" },
    { name := "quarter", valueInCents := 25, symbol := some "¢" },
    { name := "dime", valueInCents := 10, symbol := some "¢" },
    { name := "nickel", valueInCents := 5, symbol := some "¢" },
    { name := "penny", valueInCents := 1, symbol := some "¢" } ]

/-- `US_CURRENCY` from `src/config/currencies.ts`. -/
def US_CURRENCY : Currency :=
  { code := "USD", name := "US Dollar", symbol := "$", denominations := US_DENOMINATIONS }

/-- The default special rule installed by the API controller
(`ChangeCalculatorController`). -/
def demoRule : SpecialRuleConfig :=
  { divisor := 3, description := "Use random denominations when change is divisible by 3" }

/-- A concrete randomness state: the LCG seeded with 1 over a constant
ambient stream. -/
def demoWorld : RandomSource := { seeded := some 1, ambient := fun _ => 0, idx := 0 }

/-- A concrete calculator state with an empty randomized-strategy cache. -/
def demoState : CalcState := { cache := [], world := demoWorld }

/-- Transaction with the given change, paid from zero owed. -/
def demoTx (c : Int) : Transaction :=
  { amountOwedInCents := 0, amountPaidInCents := c, changeInCents := c }

/-- A state whose cache holds the snapshot `3 quarters, 1 dime, 3 pennies`
under the key (88, "USD"). -/
def hitState : RandState :=
  { cache := [((88, "USD"), [("quarter", 3), ("dime", 1), ("penny", 3)])], world := demoWorld }

/-- The same cache under a different randomness state. -/
def hitStateOtherWorld : RandState :=
  { cache := hitState.cache, world := { seeded := some 999, ambient := fun _ => 1 / 2, idx := 5 } }

/-- A currency value with the cached code but an entirely different (empty)
denomination table. -/
def usdNoCoins : Currency :=
  { code := "USD", name := "No coins", symbol := "$", denominations := [] }

/-- A currency with an empty denomination table: every candidate sums to 0,
so the randomized search necessarily exhausts its budget. -/
def emptyCurrency : Currency :=
  { code := "XXX", name := "Empty", symbol := "?", denominations := [] }

/-- A full cache of 1000 entries under distinct keys. -/
def bigCache : Cache :=
  (List.range maxCacheSize).map fun (i : Nat) => ((Int.ofNat i, "K"), ([] : DenomMap))

/-- Value the validity check associates with a denomination name: the value
of the first table entry carrying that name, 0 when absent. -/
def entryValue (currency : Currency) (name : String) : Int :=
  ((currency.denominations.find? (fun d => d.name == name)).map Denomination.valueInCents).getD 0

/-- The spec's invariant sum `sum(count_i * value_i)` over a result mapping. -/
def mapTotal (currency : Currency) (m : DenomMap) : Int :=
  (m.map (fun e => e.2 * entryValue currency e.1)).sum

/-- Well-formedness of the randomized strategy's cache relative to a
currency: distinct keys, and every entry stored under a key (c, code) is a
positive-count breakdown summing to c.  It holds for the empty cache and is
preserved by every call, so it characterizes all reachable cache states of a
calculator for this currency. -/
def CacheOK (currency : Currency) (cache : Cache) : Prop :=
  (cache.map Prod.fst).Nodup ∧
  ∀ c m, mapLookup (mkCacheKey c currency.code) cache = some m →
    mapTotal currency m = c ∧ ∀ e ∈ m, 0 < e.2

/-- Modelled from the claim's words for comparison: rounding to the nearest
integer with ties away from zero. -/
def roundHalfAwayFromZero (x : ℚ) : Int :=
  if x < 0 then -⌊-x + 1 / 2⌋ else ⌊x + 1 / 2⌋

/-- Modelled from the claim's words for comparison: the batch contract with
ties-away-from-zero conversion instead of the source's `Math.round`
(half-up, ties toward positive infinity). -/
def specProcessTransactionsTiesAway (currency : Currency)
    (specialRuleConfig : SpecialRuleConfig) :
    List (ℚ × ℚ) → CalcState → Except CashRegisterError (List String) × CalcState
  | [], st => (.ok [], st)
  | (amountOwed, amountPaid) :: rest, st =>
    let out := calculateChange currency specialRuleConfig
      (roundHalfAwayFromZero (amountOwed * 100)) (roundHalfAwayFromZero (amountPaid * 100)) st
    match out.1 with
    | .error e => (.error e, out.2)
    | .ok result =>
      let out2 := specProcessTransactionsTiesAway currency specialRuleConfig rest out.2
      match out2.1 with
      | .error e => (.error e, out2.2)
      | .ok outputs => (.ok (result.formattedOutput :: outputs), out2.2)

/-- Modelled from the claim's words for comparison: every rendered entry
pluralized unconditionally (no singular form for a count of 1). -/
def specFormatAlwaysPlural (m : DenomMap) : String :=
  String.intercalate "," ((m.filter (fun e => decide (0 < e.2))).map
    (fun e => toString e.2 ++ " " ++ pluralize e.1))

/-- Run a sequence of `RandomChangeStrategy.calculateChange` calls on one
strategy instance, threading its cache and the global randomness state. -/
def runCalls : List (Transaction × Currency) → RandState → List ChangeResult × RandState
  | [], st => ([], st)
  | (t, c) :: rest, st =>
    let out := randCalculateChange t c st
    let out2 := runCalls rest out.2
    (out.1 :: out2.1, out2.2)

/-- An un-patched randomness state with a constant ambient stream. -/
def cexBase : RandomSource := { seeded := none, ambient := fun _ => 0, idx := 0 }

/-- The global randomness state after constructing two strategy instances A
and B, each with seed 6 (each construction monkey-patches the shared
`Math.random`). -/
def cexStart : RandState := RandState.mk [] (setupSeededRandom 6 (setupSeededRandom 6 cexBase))

/-- Instance A's single call (change 175, US table), drawing from the shared
seeded generator. -/
def cexA : ChangeResult × RandState := randCalculateChange (demoTx 175) US_CURRENCY cexStart

/-- Instance B's identical single call, made after A's: B has its own empty
cache but continues the same shared generator. -/
def cexB : ChangeResult × RandState :=
  randCalculateChange (demoTx 175) US_CURRENCY (RandState.mk [] cexA.2.world)

/-- Two randomness states agree on the installed LCG state (and one is
installed): the ambient stream and its index are irrelevant from here on. -/
abbrev WEq (w w2 : RandomSource) : Prop :=
  w.seeded = w2.seeded ∧ w.seeded.isSome = true

/-- Two strategy states with equal caches over related randomness states. -/
abbrev StEq (st st2 : RandState) : Prop :=
  st.cache = st2.cache ∧ WEq st.world st2.world

/-! ### Association-list map lemmas -/

theorem mapLookup_mapSet {κ α : Type} [DecidableEq κ] (k k2 : κ) (v : α) (l : List (κ × α)) :
    mapLookup k2 (mapSet k v l) = if k = k2 then some v else mapLookup k2 l := by
  induction l with
  | nil => by_cases h : k = k2 <;> simp [mapSet, mapLookup, h]
  | cons e rest ih =>
    obtain ⟨k0, v0⟩ := e
    by_cases h0 : k0 = k
    · subst h0
      by_cases h : k0 = k2 <;> simp [mapSet, mapLookup, h]
    · by_cases h : k0 = k2
      · subst h
        have hne : ¬ k = k0 := fun hh => h0 hh.symm
        simp [mapSet, mapLookup, h0, hne]
      · simp [mapSet, mapLookup, h0, h, ih]

theorem mapSet_of_lookup_none {κ α : Type} [DecidableEq κ] (k : κ) (v : α) (l : List (κ × α))
    (h : mapLookup k l = none) : mapSet k v l = l ++ [(k, v)] := by
  induction l with
  | nil => simp [mapSet]
  | cons e rest ih =>
    obtain ⟨k0, v0⟩ := e
    simp only [mapLookup] at h
    by_cases h0 : k0 = k
    · simp [h0] at h
    · simp [mapLookup, h0] at h
      simp [mapSet, h0, ih h]

theorem length_mapSet_le {κ α : Type} [DecidableEq κ] (k : κ) (v : α) (l : List (κ × α)) :
    (mapSet k v l).length ≤ l.length + 1 := by
  induction l with
  | nil => simp [mapSet]
  | cons e rest ih =>
    obtain ⟨k0, v0⟩ := e
    by_cases h0 : k0 = k <;> simp [mapSet, h0] <;> omega

theorem keys_mapSet_of_lookup_isSome {κ α : Type} [DecidableEq κ] (k : κ) (v : α)
    (l : List (κ × α)) (h : (mapLookup k l).isSome) :
    (mapSet k v l).map Prod.fst = l.map Prod.fst := by
  induction l with
  | nil => simp [mapLookup] at h
  | cons e rest ih =>
    obtain ⟨k0, v0⟩ := e
    by_cases h0 : k0 = k
    · simp [mapSet, h0]
    · simp only [mapLookup, if_neg h0] at h
      simp [mapSet, h0, ih h]

theorem mapDelete_sublist {κ α : Type} [DecidableEq κ] (k : κ) (l : List (κ × α)) :
    (mapDelete k l).Sublist l := by
  induction l with
  | nil => simp [mapDelete]
  | cons e rest ih =>
    obtain ⟨k0, v0⟩ := e
    by_cases h0 : k0 = k
    · simpa [mapDelete, h0] using List.sublist_cons_self (k0, v0) rest
    · simpa [mapDelete, h0] using ih

theorem mapLookup_mapDelete_ne {κ α : Type} [DecidableEq κ] (k k2 : κ) (l : List (κ × α))
    (h : k ≠ k2) : mapLookup k2 (mapDelete k l) = mapLookup k2 l := by
  induction l with
  | nil => simp [mapDelete]
  | cons e rest ih =>
    obtain ⟨k0, v0⟩ := e
    by_cases h0 : k0 = k
    · subst h0
      simp [mapDelete, mapLookup, h, fun hh : k0 = k2 => h hh]
    · simp [mapDelete, mapLookup, h0, ih]

theorem mapLookup_eq_none_iff {κ α : Type} [DecidableEq κ] (k : κ) (l : List (κ × α)) :
    mapLookup k l = none ↔ k ∉ l.map Prod.fst := by
  induction l with
  | nil => simp [mapLookup]
  | cons e rest ih =>
    obtain ⟨k0, v0⟩ := e
    by_cases h0 : k0 = k <;> simp [mapLookup, h0, ih] <;> tauto

theorem mapLookup_mapDelete_self {κ α : Type} [DecidableEq κ] (k : κ) (l : List (κ × α))
    (h : (l.map Prod.fst).Nodup) : mapLookup k (mapDelete k l) = none := by
  induction l with
  | nil => simp [mapDelete, mapLookup]
  | cons e rest ih =>
    obtain ⟨k0, v0⟩ := e
    simp only [List.map_cons, List.nodup_cons] at h
    by_cases h0 : k0 = k
    · subst h0
      simpa [mapDelete, mapLookup_eq_none_iff] using h.1
    · simp [mapDelete, mapLookup, h0, ih h.2]

theorem mapSet_forall {κ α : Type} [DecidableEq κ] (k : κ) (v : α) (l : List (κ × α))
    (p : α → Prop) (hl : ∀ e ∈ l, p e.2) (hv : p v) : ∀ e ∈ mapSet k v l, p e.2 := by
  induction l with
  | nil => simpa [mapSet] using hv
  | cons e rest ih =>
    obtain ⟨k0, v0⟩ := e
    by_cases h0 : k0 = k
    · intro e he
      simp only [mapSet, if_pos h0] at he
      rcases List.mem_cons.mp he with h | h
      · subst h; exact hv
      · exact hl _ (List.mem_cons_of_mem _ h)
    · intro e he
      simp only [mapSet, if_neg h0] at he
      rcases List.mem_cons.mp he with h | h
      · subst h; exact hl _ (List.mem_cons_self _ _)
      · exact ih (fun e2 he2 => hl _ (List.mem_cons_of_mem _ he2)) _ h

/-! ### C2: validation errors -/

/-- C2.  `ChangeCalculator.calculateChange` raises `InvalidAmount` exactly for
a negative input (the owed amount checked first), `InsufficientPayment`
exactly when both amounts are non-negative and the payment falls short,
returns normally otherwise, and on either error the strategy-side state
(randomized cache and randomness source) is returned untouched. -/
theorem calculateChange_validation (cur : Currency) (cfg : SpecialRuleConfig)
    (owed paid : Int) (st : CalcState) :
    (owed < 0 →
      calculateChange cur cfg owed paid st = (.error (.invalidAmount owed), st)) ∧
    (0 ≤ owed → paid < 0 →
      calculateChange cur cfg owed paid st = (.error (.invalidAmount paid), st)) ∧
    (0 ≤ owed → 0 ≤ paid → paid < owed →
      calculateChange cur cfg owed paid st = (.error (.insufficientPayment owed paid), st)) ∧
    (0 ≤ owed → owed ≤ paid →
      ∃ r st1, calculateChange cur cfg owed paid st = (.ok r, st1)) ∧
    ((∃ a, (calculateChange cur cfg owed paid st).1 = .error (.invalidAmount a)) ↔
      owed < 0 ∨ paid < 0) ∧
    ((∃ a b, (calculateChange cur cfg owed paid st).1 = .error (.insufficientPayment a b)) ↔
      0 ≤ owed ∧ 0 ≤ paid ∧ paid < owed) := by
  have h1 : owed < 0 →
      calculateChange cur cfg owed paid st = (.error (.invalidAmount owed), st) := by
    intro h
    simp [calculateChange, validateAmounts, h]
  have h2 : 0 ≤ owed → paid < 0 →
      calculateChange cur cfg owed paid st = (.error (.invalidAmount paid), st) := by
    intro ho h
    simp [calculateChange, validateAmounts, h, show ¬ owed < 0 by omega]
  have h3 : 0 ≤ owed → 0 ≤ paid → paid < owed →
      calculateChange cur cfg owed paid st = (.error (.insufficientPayment owed paid), st) := by
    intro ho hp h
    simp [calculateChange, validateAmounts, h, show ¬ owed < 0 by omega,
      show ¬ paid < 0 by omega]
  have h4 : 0 ≤ owed → owed ≤ paid →
      ∃ r st1, calculateChange cur cfg owed paid st = (.ok r, st1) := by
    intro ho hp
    have hv : validateAmounts owed paid = .ok () := by
      unfold validateAmounts
      rw [if_neg (by omega), if_neg (by omega), if_neg (by omega)]
    simp only [calculateChange, hv]
    by_cases hz : paid - owed = 0
    · exact ⟨{ totalChangeInCents := 0, denominations := [], formattedOutput := "" }, st,
        by simp [hz]⟩
    · cases hg : getStrategy
          { amountOwedInCents := owed, amountPaidInCents := paid,
            changeInCents := paid - owed } (some cfg) with
      | random =>
        exact ⟨(randCalculateChange
            { amountOwedInCents := owed, amountPaidInCents := paid,
              changeInCents := paid - owed } cur st).1,
          (randCalculateChange
            { amountOwedInCents := owed, amountPaidInCents := paid,
              changeInCents := paid - owed } cur st).2, by simp [hz, hg]⟩
      | greedy =>
        exact ⟨greedyCalculateChange
            { amountOwedInCents := owed, amountPaidInCents := paid,
              changeInCents := paid - owed } cur, st, by simp [hz, hg]⟩
  refine ⟨h1, h2, h3, h4, ?_, ?_⟩
  · constructor
    · rintro ⟨a, ha⟩
      by_contra hcon
      push_neg at hcon
      rcases lt_or_le paid owed with hlt | hle
      · rw [h3 hcon.1 hcon.2 hlt] at ha
        simp at ha
      · obtain ⟨r, st1, hr⟩ := h4 hcon.1 hle
        rw [hr] at ha
        simp at ha
    · rintro (h | h)
      · exact ⟨owed, by rw [h1 h]⟩
      · rcases lt_or_le owed 0 with ho | ho
        · exact ⟨owed, by rw [h1 ho]⟩
        · exact ⟨paid, by rw [h2 ho h]⟩
  · constructor
    · rintro ⟨a, b, hab⟩
      rcases lt_or_le owed 0 with ho | ho
      · rw [h1 ho] at hab; simp at hab
      · rcases lt_or_le paid 0 with hp | hp
        · rw [h2 ho hp] at hab; simp at hab
        · rcases lt_or_le paid owed with hlt | hle
          · exact ⟨ho, hp, hlt⟩
          · obtain ⟨r, st1, hr⟩ := h4 ho hle
            rw [hr] at hab
            simp at hab
    · rintro ⟨ho, hp, hlt⟩
      rw [h3 ho hp hlt]
      exact ⟨owed, paid, rfl⟩

/-- Witness for C2: concrete instances of each validation behavior, exactly
the spec's three rejection scenarios plus a succeeding call. -/
theorem calculateChange_validation_witness :
    calculateChange US_CURRENCY demoRule (-1) 5 demoState =
      (.error (.invalidAmount (-1)), demoState) ∧
    calculateChange US_CURRENCY demoRule 5 (-1) demoState =
      (.error (.invalidAmount (-1)), demoState) ∧
    calculateChange US_CURRENCY demoRule 300 200 demoState =
      (.error (.insufficientPayment 300 200), demoState) ∧
    ∃ r st1, calculateChange US_CURRENCY demoRule 200 300 demoState = (.ok r, st1) :=
  ⟨(calculateChange_validation US_CURRENCY demoRule (-1) 5 demoState).1 (by decide),
   (calculateChange_validation US_CURRENCY demoRule 5 (-1) demoState).2.1 (by decide) (by decide),
   (calculateChange_validation US_CURRENCY demoRule 300 200 demoState).2.2.1 (by decide)
     (by decide) (by decide),
   (calculateChange_validation US_CURRENCY demoRule 200 300 demoState).2.2.2.1 (by decide)
     (by decide)⟩

/-! ### C3: zero-change short-circuit -/

/-- C3.  For every `n ≥ 0`, every currency, every special-rule configuration
and every strategy-side state, `calculateChange(n, n)` short-circuits to the
zero result with an empty mapping and empty formatted output, leaving the
state (in particular the randomized strategy's cache and the randomness
source) completely unchanged, without consulting the factory or a strategy. -/
theorem calculateChange_zero_shortCircuit (cur : Currency) (cfg : SpecialRuleConfig)
    (n : Int) (st : CalcState) (h : 0 ≤ n) :
    calculateChange cur cfg n n st =
      (.ok { totalChangeInCents := 0, denominations := [], formattedOutput := "" }, st) := by
  have hv : validateAmounts n n = .ok () := by
    unfold validateAmounts
    rw [if_neg (by omega), if_neg (by omega), if_neg (by omega)]
  simp [calculateChange, hv]

/-- Witness for C3 at `n = 100` on the US currency with the default rule. -/
theorem calculateChange_zero_shortCircuit_witness :
    calculateChange US_CURRENCY demoRule 100 100 demoState =
      (.ok { totalChangeInCents := 0, denominations := [], formattedOutput := "" }, demoState) :=
  calculateChange_zero_shortCircuit US_CURRENCY demoRule 100 demoState (by decide)

/-! ### C4: strategy selection -/

/-- C4.  The factory with the default registration order returns the
randomized strategy exactly when a special-rule configuration is supplied and
the change is divisible by its divisor, and the greedy strategy otherwise (in
particular always when no configuration is supplied); the two default
applicability predicates are complementary and exhaustive, so the
first-applicable scan never falls through to the absolute fallback. -/
theorem getStrategy_routing (t : Transaction) (cfg : Option SpecialRuleConfig) :
    (getStrategy t cfg = .random ↔
      ∃ c, cfg = some c ∧ t.changeInCents.tmod c.divisor = 0) ∧
    (getStrategy t cfg = .greedy ↔
      ∀ c, cfg = some c → t.changeInCents.tmod c.divisor ≠ 0) ∧
    (getStrategy t none = .greedy) ∧
    (getStrategyFirstApplicable t cfg ≠ none) ∧
    (randomShouldApply t cfg = !greedyShouldApply t cfg) := by
  cases cfg with
  | none =>
    refine ⟨?_, ?_, ?_, ?_, ?_⟩ <;>
      simp [getStrategy, getStrategyFirstApplicable, randomShouldApply, greedyShouldApply]
  | some c =>
    by_cases h : t.changeInCents.tmod c.divisor = 0
    · refine ⟨?_, ?_, ?_, ?_, ?_⟩ <;>
        simp [getStrategy, getStrategyFirstApplicable, randomShouldApply, greedyShouldApply, h,
          bne]
    · refine ⟨?_, ?_, ?_, ?_, ?_⟩ <;>
        simp [getStrategy, getStrategyFirstApplicable, randomShouldApply, greedyShouldApply, h,
          bne]

/-- Witness for C4: change 168 with divisor 3 routes to the randomized
strategy, change 100 with the same rule and change 100 without a rule route
to the greedy strategy. -/
theorem getStrategy_routing_witness :
    getStrategy (demoTx 168) (some demoRule) = .random ∧
    getStrategy (demoTx 100) (some demoRule) = .greedy ∧
    getStrategy (demoTx 100) none = .greedy :=
  ⟨(getStrategy_routing (demoTx 168) (some demoRule)).1.mpr ⟨demoRule, rfl, by decide⟩,
   (getStrategy_routing (demoTx 100) (some demoRule)).2.1.mpr
     (by rintro c hc; rw [Option.some.injEq] at hc; subst hc; decide),
   (getStrategy_routing (demoTx 100) none).2.2.1⟩

/-! ### C5: cache hits are repeatable -/

/-- C5.  When the randomized strategy's cache holds an entry for the key
(change amount, currency code), `calculateChange` returns that snapshot (as a
copy, formatted fresh) and leaves the whole state unchanged; the result is
therefore independent of the randomness source and of the denomination table
of the currency value passed on the call (only its code enters the key). -/
theorem randCalculateChange_cache_hit (tx : Transaction) (cur : Currency) (st : RandState)
    (m : DenomMap)
    (h : mapLookup (mkCacheKey tx.changeInCents cur.code) st.cache = some m) :
    randCalculateChange tx cur st =
      ({ totalChangeInCents := tx.changeInCents, denominations := mapCopy m,
         formattedOutput := formatOutput m }, st) ∧
    ∀ cur2 st2, cur2.code = cur.code → st2.cache = st.cache →
      (randCalculateChange tx cur2 st2).1 = (randCalculateChange tx cur st).1 ∧
      (randCalculateChange tx cur2 st2).2 = st2 := by
  have h1 : randCalculateChange tx cur st =
      ({ totalChangeInCents := tx.changeInCents, denominations := mapCopy m,
         formattedOutput := formatOutput m }, st) := by
    simp [randCalculateChange, h]
  refine ⟨h1, ?_⟩
  intro cur2 st2 hcode hcache
  have h2 : mapLookup (mkCacheKey tx.changeInCents cur2.code) st2.cache = some m := by
    rw [hcode, hcache]; exact h
  have h3 : randCalculateChange tx cur2 st2 =
      ({ totalChangeInCents := tx.changeInCents, denominations := mapCopy m,
         formattedOutput := formatOutput m }, st2) := by
    simp [randCalculateChange, h2]
  rw [h1, h3]
  exact ⟨rfl, rfl⟩

/-- Witness for C5: a hit on the concrete cached state returns the snapshot
unchanged, also under a different randomness state and a different
denomination table carrying the same code. -/
theorem randCalculateChange_cache_hit_witness :
    randCalculateChange (demoTx 88) US_CURRENCY hitState =
      ({ totalChangeInCents := 88,
         denominations := mapCopy [("quarter", 3), ("dime", 1), ("penny", 3)],
         formattedOutput := formatOutput [("quarter", 3), ("dime", 1), ("penny", 3)] },
       hitState) ∧
    (randCalculateChange (demoTx 88) usdNoCoins hitStateOtherWorld).1 =
      (randCalculateChange (demoTx 88) US_CURRENCY hitState).1 :=
  ⟨(randCalculateChange_cache_hit (demoTx 88) US_CURRENCY hitState
      [("quarter", 3), ("dime", 1), ("penny", 3)] rfl).1,
   ((randCalculateChange_cache_hit (demoTx 88) US_CURRENCY hitState
      [("quarter", 3), ("dime", 1), ("penny", 3)] rfl).2 usdNoCoins hitStateOtherWorld
      rfl rfl).1⟩

/-! ### C6: failed randomized search falls back to greedy, uncached -/

/-- C6.  On a cache miss, when the whole randomized search (the three
heuristics in their fixed order, `Math.floor(500 / 3)` attempts each) yields
no valid candidate, the call returns exactly the greedy strategy's result for
the same transaction and currency, and the cache is left unchanged (only the
randomness state advances). -/
theorem randCalculateChange_fallback (tx : Transaction) (cur : Currency) (st : RandState)
    (w1 : RandomSource)
    (hmiss : mapLookup (mkCacheKey tx.changeInCents cur.code) st.cache = none)
    (hgen : generateOptimizedRandomCombination tx.changeInCents cur st.world = (none, w1)) :
    randCalculateChange tx cur st = (greedyCalculateChange tx cur, { st with world := w1 }) ∧
    (randCalculateChange tx cur st).2.cache = st.cache ∧
    attemptsPerHeuristic = 166 := by
  have hg1 : (generateOptimizedRandomCombination tx.changeInCents cur st.world).1 = none := by
    rw [hgen]
  have hg2 : (generateOptimizedRandomCombination tx.changeInCents cur st.world).2 = w1 := by
    rw [hgen]
  have h1 : randCalculateChange tx cur st =
      (greedyCalculateChange tx cur, { st with world := w1 }) := by
    simp [randCalculateChange, hmiss, hg1, hg2]
  exact ⟨h1, by rw [h1], rfl⟩

set_option maxRecDepth 40000 in
/-- Witness for C6: with the empty denomination table and change 3 the whole
budget fails and the call returns the greedy result with the cache untouched. -/
theorem randCalculateChange_fallback_witness :
    randCalculateChange (demoTx 3) emptyCurrency demoState =
      (greedyCalculateChange (demoTx 3) emptyCurrency,
       { demoState with world := demoState.world }) ∧
    (randCalculateChange (demoTx 3) emptyCurrency demoState).2.cache = demoState.cache ∧
    attemptsPerHeuristic = 166 :=
  randCalculateChange_fallback (demoTx 3) emptyCurrency demoState demoState.world rfl rfl

/-! ### C7: bounded cache with insertion-order eviction -/

theorem length_cacheResult_le (key : CacheKey) (v : DenomMap) (cache : Cache)
    (h : cache.length ≤ maxCacheSize) :
    (cacheResult key v cache).length ≤ maxCacheSize := by
  unfold cacheResult
  by_cases hge : maxCacheSize ≤ cache.length
  · have hlen : cache.length = maxCacheSize := le_antisymm h hge
    cases cache with
    | nil => simp [maxCacheSize] at hlen
    | cons hd tl =>
      obtain ⟨k0, v0⟩ := hd
      simp only [if_pos hge]
      have hdel : mapDelete k0 ((k0, v0) :: tl) = tl := by simp [mapDelete]
      rw [hdel]
      have := length_mapSet_le key (mapCopy v) tl
      simp only [List.length_cons] at hlen
      omega
  · simp only [if_neg hge]
    have := length_mapSet_le key (mapCopy v) cache
    omega

theorem randCalculateChange_cache_cases (tx : Transaction) (cur : Currency) (st : RandState) :
    (randCalculateChange tx cur st).2.cache = st.cache ∨
    ∃ best, (randCalculateChange tx cur st).2.cache =
      cacheResult (mkCacheKey tx.changeInCents cur.code) best st.cache := by
  cases hl : mapLookup (mkCacheKey tx.changeInCents cur.code) st.cache with
  | some m => left; simp [randCalculateChange, hl]
  | none =>
    cases hg : (generateOptimizedRandomCombination tx.changeInCents cur st.world).1 with
    | none => left; simp [randCalculateChange, hl, hg]
    | some best => right; exact ⟨best, by simp [randCalculateChange, hl, hg]⟩

/-- C7.  The randomized strategy's cache is bounded: a `calculateChange` call
from a state within capacity stays within capacity (1000 entries); storing a
new key into a cache at capacity evicts the oldest-inserted (first) entry and
appends the new entry at the end (insertion-order eviction, not LRU); and a
cache hit leaves the whole state — hence the eviction order — unchanged. -/
theorem cache_bounded_insertionOrder :
    (∀ (cur : Currency) (cfg : SpecialRuleConfig) (owed paid : Int) (st : CalcState),
      st.cache.length ≤ maxCacheSize →
      ((calculateChange cur cfg owed paid st).2).cache.length ≤ maxCacheSize) ∧
    (∀ (key : CacheKey) (v : DenomMap) (cache : Cache),
      cache.length = maxCacheSize → mapLookup key cache = none →
      cacheResult key v cache = cache.tail ++ [(key, mapCopy v)]) ∧
    (∀ (tx : Transaction) (cur : Currency) (st : RandState) (m : DenomMap),
      mapLookup (mkCacheKey tx.changeInCents cur.code) st.cache = some m →
      (randCalculateChange tx cur st).2 = st) := by
  refine ⟨?_, ?_, ?_⟩
  · intro cur cfg owed paid st hlen
    cases hv : validateAmounts owed paid with
    | error e =>
      have hst : (calculateChange cur cfg owed paid st).2 = st := by
        simp [calculateChange, hv]
      rw [hst]; exact hlen
    | ok u =>
      by_cases hz : paid - owed = 0
      · have hst : (calculateChange cur cfg owed paid st).2 = st := by
          simp [calculateChange, hv, hz]
        rw [hst]; exact hlen
      · cases hg : getStrategy
            { amountOwedInCents := owed, amountPaidInCents := paid,
              changeInCents := paid - owed } (some cfg) with
        | greedy =>
          have hst : (calculateChange cur cfg owed paid st).2 = st := by
            simp [calculateChange, hv, hz, hg]
          rw [hst]; exact hlen
        | random =>
          have hred : (calculateChange cur cfg owed paid st).2 =
              (randCalculateChange
                { amountOwedInCents := owed, amountPaidInCents := paid,
                  changeInCents := paid - owed } cur st).2 := by
            simp [calculateChange, hv, hz, hg]
          rw [hred]
          rcases randCalculateChange_cache_cases
              { amountOwedInCents := owed, amountPaidInCents := paid,
                changeInCents := paid - owed } cur st with hc | ⟨best, hc⟩
          · rw [hc]; exact hlen
          · rw [hc]; exact length_cacheResult_le _ _ _ hlen
  · intro key v cache hlen hnone
    have hge : maxCacheSize ≤ cache.length := le_of_eq hlen.symm
    cases cache with
    | nil => simp [maxCacheSize] at hlen
    | cons hd tl =>
      obtain ⟨k0, v0⟩ := hd
      unfold cacheResult
      simp only [if_pos hge]
      have hdel : mapDelete k0 ((k0, v0) :: tl) = tl := by simp [mapDelete]
      rw [hdel]
      simp only [mapLookup] at hnone
      by_cases h0 : k0 = key
      · simp [h0] at hnone
      · rw [if_neg h0] at hnone
        simp only [List.tail_cons]
        exact mapSet_of_lookup_none key (mapCopy v) tl hnone
  · intro tx cur st m h
    simp [randCalculateChange, h]

/-- Witness for C7: the concrete full cache evicts its first entry when a
fresh key is stored, a call from a bounded state stays bounded, and a hit on
the concrete cached state changes nothing. -/
theorem cache_bounded_insertionOrder_witness :
    bigCache.length = maxCacheSize ∧
    mapLookup (((2000 : Int), "K")) bigCache = none ∧
    cacheResult (((2000 : Int), "K")) [("penny", 3)] bigCache =
      bigCache.tail ++ [((((2000 : Int), "K")), mapCopy [("penny", 3)])] ∧
    (calculateChange US_CURRENCY demoRule 0 88 demoState).2.cache.length ≤ maxCacheSize ∧
    (randCalculateChange (demoTx 88) US_CURRENCY hitState).2 = hitState := by
  have hlen : bigCache.length = maxCacheSize := by
    unfold bigCache
    rw [List.length_map, List.length_range]
  have hnone : mapLookup (((2000 : Int), "K")) bigCache = none := by
    rw [mapLookup_eq_none_iff]
    unfold bigCache
    intro hmem
    simp only [List.map_map, List.mem_map, List.mem_range, Function.comp] at hmem
    obtain ⟨i, hi, he⟩ := hmem
    simp only [Prod.mk.injEq] at he
    have hi2 : i < 1000 := by simpa [maxCacheSize] using hi
    have he2 : (i : Int) = 2000 := he.1
    omega
  refine ⟨hlen, hnone, ?_, ?_, ?_⟩
  · exact cache_bounded_insertionOrder.2.1 _ _ _ hlen hnone
  · exact cache_bounded_insertionOrder.1 US_CURRENCY demoRule 0 88 demoState (by simp [demoState])
  · exact cache_bounded_insertionOrder.2.2 (demoTx 88) US_CURRENCY hitState
      [("quarter", 3), ("dime", 1), ("penny", 3)] rfl

/-! ### C1: correctness of the computed change -/

theorem cacheOK_nil (currency : Currency) : CacheOK currency [] :=
  ⟨List.nodup_nil, fun _ m h => Option.noConfusion h⟩

theorem insertDesc_perm (d : Denomination) (l : List Denomination) :
    (insertDesc d l).Perm (d :: l) := by
  induction l with
  | nil => simp [insertDesc]
  | cons e es ih =>
    by_cases h : d.valueInCents ≤ e.valueInCents
    · simp only [insertDesc, if_pos h]
      exact (ih.cons e).trans (List.Perm.swap d e es)
    · simp [insertDesc, h]

theorem foldl_insertDesc_perm (l : List Denomination) :
    ∀ acc, (l.foldl (fun acc d => insertDesc d acc) acc).Perm (l ++ acc) := by
  induction l with
  | nil => intro acc; simp
  | cons d rest ih =>
    intro acc
    simp only [List.foldl_cons, List.cons_append]
    exact (ih (insertDesc d acc)).trans
      ((List.Perm.append_left rest (insertDesc_perm d acc)).trans List.perm_middle)

theorem sortByValueDesc_perm (l : List Denomination) : (sortByValueDesc l).Perm l := by
  simpa using foldl_insertDesc_perm l []

theorem entryValue_eq_of_mem (l : List Denomination) (d : Denomination)
    (hnodup : (l.map Denomination.name).Nodup) (hmem : d ∈ l) :
    ((l.find? (fun e => e.name == d.name)).map Denomination.valueInCents).getD 0 =
      d.valueInCents := by
  induction l with
  | nil => exact absurd hmem (List.not_mem_nil d)
  | cons e rest ih =>
    simp only [List.map_cons, List.nodup_cons] at hnodup
    by_cases h : e.name = d.name
    · have hfind : (e :: rest).find? (fun e2 => e2.name == d.name) = some e := by
        simp [List.find?_cons, h]
      rw [hfind]
      rcases List.mem_cons.mp hmem with hde | hdr
      · rw [hde]; simp
      · exact absurd (h ▸ List.mem_map_of_mem Denomination.name hdr) hnodup.1
    · have hfind : (e :: rest).find? (fun e2 => e2.name == d.name) =
          rest.find? (fun e2 => e2.name == d.name) := by
        simp [List.find?_cons, h]
      rw [hfind]
      rcases List.mem_cons.mp hmem with hde | hdr
      · exact absurd (congrArg Denomination.name hde.symm) h
      · exact ih hnodup.2 hdr

theorem entryValue_eq (currency : Currency) (d : Denomination)
    (hnodup : (currency.denominations.map Denomination.name).Nodup)
    (hmem : d ∈ currency.denominations) : entryValue currency d.name = d.valueInCents :=
  entryValue_eq_of_mem currency.denominations d hnodup hmem

theorem mapTotal_append_single (currency : Currency) (l : DenomMap) (k : String) (c : Int) :
    mapTotal currency (l ++ [(k, c)]) = mapTotal currency l + c * entryValue currency k := by
  simp [mapTotal]

theorem mapTotal_mapSet_none (currency : Currency) (l : DenomMap) (k : String) (c : Int)
    (h : mapLookup k l = none) :
    mapTotal currency (mapSet k c l) = mapTotal currency l + c * entryValue currency k := by
  rw [mapSet_of_lookup_none k c l h, mapTotal_append_single]

theorem greedyLoop_spec (cur : Currency)
    (hnodupcur : (cur.denominations.map Denomination.name).Nodup) :
    ∀ (ds : List Denomination) (r : Int) (acc : DenomMap),
      (∀ d ∈ ds, d ∈ cur.denominations) →
      ((ds.map Denomination.name).Nodup) →
      (∀ d ∈ ds, mapLookup d.name acc = none) →
      (∀ d ∈ ds, 0 < d.valueInCents) →
      0 ≤ r →
      (∀ e ∈ acc, 0 < e.2) →
      mapTotal cur (greedyLoop ds r acc).1 + (greedyLoop ds r acc).2 =
        mapTotal cur acc + r ∧
      (∀ e ∈ (greedyLoop ds r acc).1, 0 < e.2) ∧
      0 ≤ (greedyLoop ds r acc).2 ∧
      (greedyLoop ds r acc).2 ≤ r ∧
      ((∃ d ∈ ds, d.valueInCents = 1) → (greedyLoop ds r acc).2 = 0) := by
  intro ds
  induction ds with
  | nil =>
    intro r acc _ _ _ _ hr hacc
    refine ⟨by simp [greedyLoop], by simpa [greedyLoop] using hacc, by simpa [greedyLoop] using hr,
      by simp [greedyLoop], ?_⟩
    rintro ⟨d, hd, _⟩
    exact absurd hd (List.not_mem_nil d)
  | cons d rest ih =>
    intro r acc hmem hnodup hfresh hpos hr hacc
    have hdmem : d ∈ cur.denominations := hmem d (List.mem_cons_self d rest)
    have hdpos : 0 < d.valueInCents := hpos d (List.mem_cons_self d rest)
    simp only [List.map_cons, List.nodup_cons] at hnodup
    by_cases hle : d.valueInCents ≤ r
    · have hloop : greedyLoop (d :: rest) r acc =
          greedyLoop rest (r - Int.fdiv r d.valueInCents * d.valueInCents)
            (mapSet d.name (Int.fdiv r d.valueInCents) acc) := by
        simp [greedyLoop, hle]
      have hfd : Int.fdiv r d.valueInCents = r / d.valueInCents :=
        Int.fdiv_eq_ediv r (le_of_lt hdpos)
      have hcount : 0 < Int.fdiv r d.valueInCents := by
        rw [hfd]
        have := (Int.le_ediv_iff_mul_le hdpos).mpr (by omega : 1 * d.valueInCents ≤ r)
        omega
      have hrem : r - Int.fdiv r d.valueInCents * d.valueInCents = r % d.valueInCents := by
        rw [hfd, Int.emod_def]
        ring
      have hrem_nonneg : 0 ≤ r - Int.fdiv r d.valueInCents * d.valueInCents := by
        rw [hrem]
        exact Int.emod_nonneg r (ne_of_gt hdpos)
      have hrem_lt : r - Int.fdiv r d.valueInCents * d.valueInCents < d.valueInCents := by
        rw [hrem]
        exact Int.emod_lt_of_pos r hdpos
      have hfresh_d : mapLookup d.name acc = none := hfresh d (List.mem_cons_self d rest)
      have hfresh2 : ∀ e ∈ rest,
          mapLookup e.name (mapSet d.name (Int.fdiv r d.valueInCents) acc) = none := by
        intro e he
        rw [mapLookup_mapSet]
        have hne : d.name ≠ e.name := fun hh =>
          hnodup.1 (hh ▸ List.mem_map_of_mem Denomination.name he)
        rw [if_neg hne]
        exact hfresh e (List.mem_cons_of_mem d he)
      have hacc2 : ∀ e ∈ mapSet d.name (Int.fdiv r d.valueInCents) acc, 0 < e.2 :=
        mapSet_forall _ _ _ _ hacc hcount
      obtain ⟨ih1, ih2, ih3, ih4, ih5⟩ := ih (r - Int.fdiv r d.valueInCents * d.valueInCents)
        (mapSet d.name (Int.fdiv r d.valueInCents) acc)
        (fun e he => hmem e (List.mem_cons_of_mem d he)) hnodup.2 hfresh2
        (fun e he => hpos e (List.mem_cons_of_mem d he)) hrem_nonneg hacc2
      have htot : mapTotal cur (mapSet d.name (Int.fdiv r d.valueInCents) acc) =
          mapTotal cur acc + Int.fdiv r d.valueInCents * d.valueInCents := by
        rw [mapTotal_mapSet_none cur acc d.name _ hfresh_d, entryValue_eq cur d hnodupcur hdmem]
      refine ⟨?_, ?_, ?_, ?_, ?_⟩
      · rw [hloop, ih1, htot]
        ring
      · rw [hloop]; exact ih2
      · rw [hloop]; exact ih3
      · rw [hloop]
        have hstep : r - Int.fdiv r d.valueInCents * d.valueInCents ≤ r := by
          have : 0 < Int.fdiv r d.valueInCents * d.valueInCents :=
            mul_pos hcount hdpos
          omega
        exact le_trans ih4 hstep
      · rintro ⟨e, he, hv1⟩
        rw [hloop]
        rcases List.mem_cons.mp he with hed | her
        · have hr0 : r - Int.fdiv r d.valueInCents * d.valueInCents = 0 := by
            have hv : d.valueInCents = 1 := hed ▸ hv1
            rw [hv, Int.fdiv_one]
            ring
          rw [hr0] at ih3 ih4 ⊢
          omega
        · exact ih5 ⟨e, her, hv1⟩
    · have hloop : greedyLoop (d :: rest) r acc = greedyLoop rest r acc := by
        simp [greedyLoop, hle]
      obtain ⟨ih1, ih2, ih3, ih4, ih5⟩ := ih r acc
        (fun e he => hmem e (List.mem_cons_of_mem d he)) hnodup.2
        (fun e he => hfresh e (List.mem_cons_of_mem d he))
        (fun e he => hpos e (List.mem_cons_of_mem d he)) hr hacc
      refine ⟨by rw [hloop]; exact ih1, by rw [hloop]; exact ih2, by rw [hloop]; exact ih3,
        by rw [hloop]; exact ih4, ?_⟩
      rintro ⟨e, he, hv1⟩
      rw [hloop]
      rcases List.mem_cons.mp he with hed | her
      · have hv : d.valueInCents = 1 := hed ▸ hv1
        have hr0 : r = 0 := by omega
        subst hr0
        omega
      · exact ih5 ⟨e, her, hv1⟩

theorem greedy_correct (tx : Transaction) (cur : Currency)
    (hpos : ∀ d ∈ cur.denominations, 0 < d.valueInCents)
    (hone : ∃ d ∈ cur.denominations, d.valueInCents = 1)
    (hnodup : (cur.denominations.map Denomination.name).Nodup)
    (hc : 0 ≤ tx.changeInCents) :
    mapTotal cur (greedyCalculateChange tx cur).denominations = tx.changeInCents ∧
    (∀ e ∈ (greedyCalculateChange tx cur).denominations, 0 < e.2) ∧
    (greedyCalculateChange tx cur).totalChangeInCents = tx.changeInCents := by
  have hperm := sortByValueDesc_perm cur.denominations
  have hmem : ∀ d ∈ sortByValueDesc cur.denominations, d ∈ cur.denominations :=
    fun d hd => hperm.mem_iff.mp hd
  have hnodup2 : ((sortByValueDesc cur.denominations).map Denomination.name).Nodup :=
    ((hperm.map Denomination.name).nodup_iff).mpr hnodup
  have hone2 : ∃ d ∈ sortByValueDesc cur.denominations, d.valueInCents = 1 := by
    obtain ⟨d, hd, hv⟩ := hone
    exact ⟨d, hperm.mem_iff.mpr hd, hv⟩
  obtain ⟨h1, h2, h3, h4, h5⟩ := greedyLoop_spec cur hnodup (sortByValueDesc cur.denominations)
    tx.changeInCents [] hmem hnodup2 (fun d _ => rfl)
    (fun d hd => hpos d (hmem d hd)) hc (fun e he => absurd he (List.not_mem_nil e))
  have hzero := h5 hone2
  refine ⟨?_, h2, rfl⟩
  have : mapTotal cur (greedyLoop (sortByValueDesc cur.denominations) tx.changeInCents []).1 =
      tx.changeInCents := by
    rw [hzero] at h1
    simpa [mapTotal] using h1
  exact this

theorem isValidLoop_mapTotal (cur : Currency) :
    ∀ (m : DenomMap) (target total : Int),
      isValidCombinationLoop cur target m total = true →
      mapTotal cur m + total = target := by
  intro m
  induction m with
  | nil =>
    intro target total h
    simp only [isValidCombinationLoop, beq_iff_eq] at h
    simp [mapTotal, h]
  | cons e rest ih =>
    intro target total h
    obtain ⟨name, count⟩ := e
    simp only [isValidCombinationLoop] at h
    cases hf : cur.denominations.find? (fun d => d.name == name) with
    | none => rw [hf] at h; cases h
    | some d =>
      rw [hf] at h
      have hr := ih target (total + count * d.valueInCents) h
      have hev : entryValue cur name = d.valueInCents := by
        simp [entryValue, hf]
      simp only [mapTotal, List.map_cons, List.sum_cons] at hr ⊢
      rw [hev]
      linarith

theorem isValid_mapTotal (cur : Currency) (m : DenomMap) (target : Int)
    (h : isValidCombination m target cur = true) : mapTotal cur m = target := by
  have := isValidLoop_mapTotal cur m target 0 h
  omega

theorem genBiasLargerLoop_pos :
    ∀ (ds : List Denomination) (r : Int) (acc : DenomMap) (w : RandomSource),
      (∀ e ∈ acc, 0 < e.2) → ∀ e ∈ (genBiasLargerLoop ds r acc w).1, 0 < e.2 := by
  intro ds
  induction ds with
  | nil => intro r acc w hacc; simpa [genBiasLargerLoop] using hacc
  | cons d rest ih =>
    intro r acc w hacc
    by_cases hr : 0 < r
    · by_cases hm : 0 < Int.fdiv r d.valueInCents
      · simp only [genBiasLargerLoop, if_pos hr, if_pos hm]
        set count := ⌊(mathRandom w).1 *
          ((⌈(Int.fdiv r d.valueInCents : ℚ) * (9 / 10)⌉ : ℚ) -
            (⌈(Int.fdiv r d.valueInCents : ℚ) * (6 / 10)⌉ : ℚ) + 1)⌋ +
          ⌈(Int.fdiv r d.valueInCents : ℚ) * (6 / 10)⌉ with hcount
        by_cases hc : 0 < count
        · simp only [if_pos hc]
          exact ih _ _ _ (mapSet_forall _ _ _ _ hacc (lt_min hc hm))
        · simp only [if_neg hc]
          exact ih _ _ _ hacc
      · simp only [genBiasLargerLoop, if_pos hr, if_neg hm]
        exact ih _ _ _ hacc
    · simpa [genBiasLargerLoop, if_neg hr] using hacc

theorem genUniformLoop_pos :
    ∀ (ds : List Denomination) (r : Int) (acc : DenomMap) (w : RandomSource),
      (∀ e ∈ acc, 0 < e.2) → ∀ e ∈ (genUniformLoop ds r acc w).1, 0 < e.2 := by
  intro ds
  induction ds with
  | nil => intro r acc w hacc; simpa [genUniformLoop] using hacc
  | cons d rest ih =>
    intro r acc w hacc
    by_cases hr : 0 < r
    · by_cases hm : 0 < Int.fdiv r d.valueInCents
      · simp only [genUniformLoop, if_pos hr, if_pos hm]
        by_cases hc : 0 < ⌊(mathRandom w).1 * ((Int.fdiv r d.valueInCents : ℚ) + 1)⌋
        · simp only [if_pos hc]
          exact ih _ _ _ (mapSet_forall _ _ _ _ hacc hc)
        · simp only [if_neg hc]
          exact ih _ _ _ hacc
      · simp only [genUniformLoop, if_pos hr, if_neg hm]
        exact ih _ _ _ hacc
    · simpa [genUniformLoop, if_neg hr] using hacc

theorem genBiasSmallerLoop_pos :
    ∀ (ds : List Denomination) (r : Int) (acc : DenomMap) (w : RandomSource),
      (∀ e ∈ acc, 0 < e.2) → ∀ e ∈ (genBiasSmallerLoop ds r acc w).1, 0 < e.2 := by
  intro ds
  induction ds with
  | nil => intro r acc w hacc; simpa [genBiasSmallerLoop] using hacc
  | cons d rest ih =>
    intro r acc w hacc
    by_cases hm : 0 < Int.fdiv r d.valueInCents
    · simp only [genBiasSmallerLoop, if_pos hm]
      set count := if (mathRandom w).1 < 7 / 10 then
          ⌊(mathRandom (mathRandom w).2).1 * (Int.fdiv r d.valueInCents : ℚ)⌋ +
            Int.fdiv (Int.fdiv r d.valueInCents) 2
        else ⌊(mathRandom (mathRandom w).2).1 * ((Int.fdiv r d.valueInCents : ℚ) + 1)⌋
        with hcount
      by_cases hc : 0 < min count (Int.fdiv r d.valueInCents)
      · simp only [if_pos hc]
        exact ih _ _ _ (mapSet_forall _ _ _ _ hacc hc)
      · simp only [if_neg hc]
        exact ih _ _ _ hacc
    · simp only [genBiasSmallerLoop, if_neg hm]
      exact ih _ _ _ hacc

theorem tryAttempts_some
    (heuristic : Int → List Denomination → RandomSource → DenomMap × RandomSource)
    (changeInCents : Int) (sorted : List Denomination) (cur : Currency)
    (hpos : ∀ w, ∀ e ∈ (heuristic changeInCents sorted w).1, 0 < e.2) :
    ∀ (n : Nat) (w : RandomSource) (cand : DenomMap) (w1 : RandomSource),
      tryAttempts heuristic changeInCents sorted cur n w = (some cand, w1) →
      isValidCombination cand changeInCents cur = true ∧ ∀ e ∈ cand, 0 < e.2 := by
  intro n
  induction n with
  | zero =>
    intro w cand w1 h
    have h0 : tryAttempts heuristic changeInCents sorted cur 0 w = (none, w) := rfl
    rw [h0] at h
    exact Option.noConfusion (congrArg Prod.fst h)
  | succ n ih =>
    intro w cand w1 h
    have hsucc : tryAttempts heuristic changeInCents sorted cur (n + 1) w =
        if isValidCombination (heuristic changeInCents sorted w).1 changeInCents cur = true then
          (some (heuristic changeInCents sorted w).1, (heuristic changeInCents sorted w).2)
        else tryAttempts heuristic changeInCents sorted cur n
          (heuristic changeInCents sorted w).2 := rfl
    by_cases hv : isValidCombination (heuristic changeInCents sorted w).1 changeInCents cur = true
    · rw [hsucc, if_pos hv] at h
      have hc : cand = (heuristic changeInCents sorted w).1 := by
        have := congrArg Prod.fst h
        simpa using this.symm
      rw [hc]
      exact ⟨hv, hpos w⟩
    · rw [hsucc, if_neg hv] at h
      exact ih _ _ _ h

theorem gen_some (changeInCents : Int) (cur : Currency) (w : RandomSource)
    (cand : DenomMap) (w1 : RandomSource)
    (hgen : generateOptimizedRandomCombination changeInCents cur w = (some cand, w1)) :
    isValidCombination cand changeInCents cur = true ∧ ∀ e ∈ cand, 0 < e.2 := by
  have hposL : ∀ w2, ∀ e ∈ (generateRandomWithBiasTowardsLarger changeInCents
      (sortByValueDesc cur.denominations) w2).1, 0 < e.2 := fun w2 =>
    genBiasLargerLoop_pos _ _ _ _ (fun e he => absurd he (List.not_mem_nil e))
  have hposU : ∀ w2, ∀ e ∈ (generateRandomWithUniformDistribution changeInCents
      (sortByValueDesc cur.denominations) w2).1, 0 < e.2 := fun w2 =>
    genUniformLoop_pos _ _ _ _ (fun e he => absurd he (List.not_mem_nil e))
  have hposS : ∀ w2, ∀ e ∈ (generateRandomWithBiasTowardsSmaller changeInCents
      (sortByValueDesc cur.denominations) w2).1, 0 < e.2 := fun w2 =>
    genBiasSmallerLoop_pos _ _ _ _ (fun e he => absurd he (List.not_mem_nil e))
  cases h1 : (tryAttempts generateRandomWithBiasTowardsLarger changeInCents
      (sortByValueDesc cur.denominations) cur attemptsPerHeuristic w).1 with
  | some c1 =>
    have hd : generateOptimizedRandomCombination changeInCents cur w =
        tryAttempts generateRandomWithBiasTowardsLarger changeInCents
          (sortByValueDesc cur.denominations) cur attemptsPerHeuristic w := by
      simp only [generateOptimizedRandomCombination, h1]
    rw [hd] at hgen
    exact tryAttempts_some _ _ _ _ hposL _ _ _ _ hgen
  | none =>
    cases h2 : (tryAttempts generateRandomWithUniformDistribution changeInCents
        (sortByValueDesc cur.denominations) cur attemptsPerHeuristic
        (tryAttempts generateRandomWithBiasTowardsLarger changeInCents
          (sortByValueDesc cur.denominations) cur attemptsPerHeuristic w).2).1 with
    | some c2 =>
      have hd : generateOptimizedRandomCombination changeInCents cur w =
          tryAttempts generateRandomWithUniformDistribution changeInCents
            (sortByValueDesc cur.denominations) cur attemptsPerHeuristic
            (tryAttempts generateRandomWithBiasTowardsLarger changeInCents
              (sortByValueDesc cur.denominations) cur attemptsPerHeuristic w).2 := by
        simp only [generateOptimizedRandomCombination, h1, h2]
      rw [hd] at hgen
      exact tryAttempts_some _ _ _ _ hposU _ _ _ _ hgen
    | none =>
      have hd : generateOptimizedRandomCombination changeInCents cur w =
          tryAttempts generateRandomWithBiasTowardsSmaller changeInCents
            (sortByValueDesc cur.denominations) cur attemptsPerHeuristic
            (tryAttempts generateRandomWithUniformDistribution changeInCents
              (sortByValueDesc cur.denominations) cur attemptsPerHeuristic
              (tryAttempts generateRandomWithBiasTowardsLarger changeInCents
                (sortByValueDesc cur.denominations) cur attemptsPerHeuristic w).2).2 := by
        simp only [generateOptimizedRandomCombination, h1, h2]
      rw [hd] at hgen
      exact tryAttempts_some _ _ _ _ hposS _ _ _ _ hgen

theorem cacheOK_evict (cur : Currency) (cache : Cache) (hok : CacheOK cur cache) :
    CacheOK cur (match cache with
      | [] => cache
      | (firstKey, _) :: _ => mapDelete firstKey cache) := by
  obtain ⟨hnd, hval⟩ := hok
  cases cache with
  | nil => exact ⟨hnd, hval⟩
  | cons hd tl =>
    obtain ⟨k0, v0⟩ := hd
    constructor
    · exact ((mapDelete_sublist k0 ((k0, v0) :: tl)).map Prod.fst).nodup hnd
    · intro c2 m2 hl
      by_cases hk : mkCacheKey c2 cur.code = k0
      · rw [hk, mapLookup_mapDelete_self k0 _ hnd] at hl
        cases hl
      · rw [mapLookup_mapDelete_ne k0 _ _ (fun hh => hk hh.symm)] at hl
        exact hval c2 m2 hl

theorem cacheOK_mapSet (cur : Currency) (cache : Cache) (c : Int) (m : DenomMap)
    (hok : CacheOK cur cache) (hm : mapTotal cur m = c) (hpos : ∀ e ∈ m, 0 < e.2) :
    CacheOK cur (mapSet (mkCacheKey c cur.code) m cache) := by
  obtain ⟨hnd, hval⟩ := hok
  constructor
  · cases hlk : mapLookup (mkCacheKey c cur.code) cache with
    | none =>
      rw [mapSet_of_lookup_none _ _ _ hlk, List.map_append]
      rw [List.nodup_append]
      refine ⟨hnd, by simp, ?_⟩
      intro a ha hb
      simp only [List.map_cons, List.map_nil, List.mem_singleton] at hb
      subst hb
      exact (mapLookup_eq_none_iff _ _).mp hlk ha
    | some v2 =>
      rw [keys_mapSet_of_lookup_isSome _ _ _ (by rw [hlk]; rfl)]
      exact hnd
  · intro c2 m2 hl
    rw [mapLookup_mapSet] at hl
    by_cases hk : mkCacheKey c cur.code = mkCacheKey c2 cur.code
    · rw [if_pos hk] at hl
      have hcc : c = c2 := by
        simpa [mkCacheKey, Prod.mk.injEq] using hk
      have hmm : m = m2 := Option.some.inj hl
      subst hmm
      exact ⟨hcc ▸ hm, hpos⟩
    · rw [if_neg hk] at hl
      exact hval c2 m2 hl

theorem cacheOK_cacheResult (cur : Currency) (cache : Cache) (c : Int) (m : DenomMap)
    (hok : CacheOK cur cache) (hm : mapTotal cur m = c) (hpos : ∀ e ∈ m, 0 < e.2) :
    CacheOK cur (cacheResult (mkCacheKey c cur.code) m cache) := by
  by_cases hge : maxCacheSize ≤ cache.length
  · cases cache with
    | nil => simp [maxCacheSize] at hge
    | cons hd tl =>
      obtain ⟨k0, v0⟩ := hd
      obtain ⟨hnd, hval⟩ := hok
      have hstep : CacheOK cur (mapDelete k0 ((k0, v0) :: tl)) := by
        constructor
        · exact ((mapDelete_sublist k0 ((k0, v0) :: tl)).map Prod.fst).nodup hnd
        · intro c2 m2 hl
          by_cases hk : mkCacheKey c2 cur.code = k0
          · rw [hk, mapLookup_mapDelete_self k0 _ hnd] at hl
            cases hl
          · rw [mapLookup_mapDelete_ne k0 _ _ (fun hh => hk hh.symm)] at hl
            exact hval c2 m2 hl
      have hge2 : maxCacheSize ≤ tl.length + 1 := by simpa using hge
      have hins := cacheOK_mapSet cur _ c (mapCopy m) hstep hm hpos
      simpa [cacheResult, hge2] using hins
  · have hins := cacheOK_mapSet cur cache c (mapCopy m) hok hm hpos
    simpa [cacheResult, hge] using hins

/-- C1.  For every currency with positive denomination values, distinct
names and a unit denomination, and every `paid ≥ owed ≥ 0` and reachable
strategy state (characterized by `CacheOK`), `calculateChange` succeeds with
`totalChangeInCents = paid − owed`, a mapping whose value-weighted sum equals
that same total, and strictly positive stored counts only; the resulting
cache state is well-formed again.  The universally quantified configuration
covers the greedy path, the randomized path (hit, fresh success and greedy
fallback) and the zero short-circuit. -/
theorem calculateChange_correct (cur : Currency) (cfg : SpecialRuleConfig)
    (owed paid : Int) (st : CalcState)
    (hpos : ∀ d ∈ cur.denominations, 0 < d.valueInCents)
    (hone : ∃ d ∈ cur.denominations, d.valueInCents = 1)
    (hnodup : (cur.denominations.map Denomination.name).Nodup)
    (h0 : 0 ≤ owed) (hle : owed ≤ paid)
    (hcache : CacheOK cur st.cache) :
    ∃ r st1, calculateChange cur cfg owed paid st = (.ok r, st1) ∧
      r.totalChangeInCents = paid - owed ∧
      mapTotal cur r.denominations = paid - owed ∧
      (∀ e ∈ r.denominations, 0 < e.2) ∧
      CacheOK cur st1.cache := by
  have hv : validateAmounts owed paid = .ok () := by
    unfold validateAmounts
    rw [if_neg (by omega), if_neg (by omega), if_neg (by omega)]
  by_cases hz : paid - owed = 0
  · refine ⟨{ totalChangeInCents := 0, denominations := [], formattedOutput := "" }, st,
      by simp [calculateChange, hv, hz], by simpa using hz.symm, by simpa [mapTotal] using hz.symm,
      fun e he => absurd he (List.not_mem_nil e), hcache⟩
  · have hchange : (0 : Int) ≤ paid - owed := by omega
    cases hg : getStrategy
        { amountOwedInCents := owed, amountPaidInCents := paid,
          changeInCents := paid - owed } (some cfg) with
    | greedy =>
      obtain ⟨g1, g2, g3⟩ := greedy_correct
        { amountOwedInCents := owed, amountPaidInCents := paid,
          changeInCents := paid - owed } cur hpos hone hnodup hchange
      exact ⟨greedyCalculateChange
          { amountOwedInCents := owed, amountPaidInCents := paid,
            changeInCents := paid - owed } cur, st,
        by simp [calculateChange, hv, hz, hg], g3, g1, g2, hcache⟩
    | random =>
      cases hl : mapLookup (mkCacheKey (paid - owed) cur.code) st.cache with
      | some m =>
        obtain ⟨hm1, hm2⟩ := hcache.2 (paid - owed) m hl
        refine ⟨ChangeResult.mk (paid - owed) (mapCopy m) (formatOutput m), st,
          ?_, rfl, hm1, hm2, hcache⟩
        simp [calculateChange, hv, hz, hg, randCalculateChange, hl]
      | none =>
        cases hgen : (generateOptimizedRandomCombination (paid - owed) cur st.world).1 with
        | none =>
          obtain ⟨g1, g2, g3⟩ := greedy_correct
            { amountOwedInCents := owed, amountPaidInCents := paid,
              changeInCents := paid - owed } cur hpos hone hnodup hchange
          refine ⟨greedyCalculateChange
              { amountOwedInCents := owed, amountPaidInCents := paid,
                changeInCents := paid - owed } cur,
            { st with world := (generateOptimizedRandomCombination (paid - owed) cur st.world).2 },
            ?_, g3, g1, g2, hcache⟩
          simp [calculateChange, hv, hz, hg, randCalculateChange, hl, hgen]
        | some best =>
          have hgen2 : generateOptimizedRandomCombination (paid - owed) cur st.world =
              (some best, (generateOptimizedRandomCombination (paid - owed) cur st.world).2) :=
            Prod.ext hgen rfl
          obtain ⟨hval, hpos2⟩ := gen_some (paid - owed) cur st.world best _ hgen2
          have hm := isValid_mapTotal cur best (paid - owed) hval
          refine ⟨ChangeResult.mk (paid - owed) best (formatOutput best),
            RandState.mk (cacheResult (mkCacheKey (paid - owed) cur.code) best st.cache)
              ((generateOptimizedRandomCombination (paid - owed) cur st.world).2),
            ?_, rfl, hm, hpos2, ?_⟩
          · simp [calculateChange, hv, hz, hg, randCalculateChange, hl, hgen]
          · exact cacheOK_cacheResult cur st.cache (paid - owed) best hcache hm hpos2

/-- Witness for C1: the spec's 88-cent scenario on the US table through the
greedy path, from the empty (well-formed) cache. -/
theorem calculateChange_correct_witness :
    ∃ r st1, calculateChange US_CURRENCY demoRule 212 300 demoState = (.ok r, st1) ∧
      r.totalChangeInCents = 300 - 212 ∧
      mapTotal US_CURRENCY r.denominations = 300 - 212 ∧
      (∀ e ∈ r.denominations, 0 < e.2) ∧
      CacheOK US_CURRENCY st1.cache :=
  calculateChange_correct US_CURRENCY demoRule 212 300 demoState (by decide) (by decide)
    (by decide) (by decide) (by decide) (cacheOK_nil US_CURRENCY)

/-! ### C8: batch processing and decimal-to-cents rounding -/

/-- Counterexample to C8 as stated: on the pair (−0.005, 1) the code rounds
the owed amount with `Math.round` (ties toward +∞) to 0 and returns the
change for a full payment of 1, while the claimed ties-away-from-zero
rounding would make the owed amount −1 and fail the whole batch with
InvalidAmount. -/
theorem processTransactions_rounding_counterexample :
    (processTransactions US_CURRENCY demoRule [(-(1 / 200), 1)] demoState).1 =
      .ok ["1 dollar"] ∧
    (specProcessTransactionsTiesAway US_CURRENCY demoRule [(-(1 / 200), 1)] demoState).1 =
      .error (.invalidAmount (-1)) ∧
    mathRound ((-(1 / 200) : ℚ) * 100) = 0 ∧
    roundHalfAwayFromZero ((-(1 / 200) : ℚ) * 100) = -1 := by
  refine ⟨?_, ?_, ?_, ?_⟩ <;> with_unfolding_all decide

/-- C8 (amended to the source's rounding: ties toward positive infinity,
which coincides with ties away from zero on non-negative amounts).  Batch
processing converts each decimal pair with `Math.round(x * 100)`, preserves
order and length, maps the empty batch to the empty output, aborts the whole
batch with the first failing pair's error, and prepends each successful
pair's formatted output. -/
theorem processTransactions_batch (cur : Currency) (cfg : SpecialRuleConfig)
    (pairs : List (ℚ × ℚ)) (st : CalcState) (o p : ℚ) (rest : List (ℚ × ℚ)) :
    (processTransactions cur cfg [] st = (.ok [], st)) ∧
    (∀ outs st1, processTransactions cur cfg pairs st = (.ok outs, st1) →
      outs.length = pairs.length) ∧
    (∀ e, (calculateChange cur cfg (mathRound (o * 100)) (mathRound (p * 100)) st).1 =
        .error e →
      processTransactions cur cfg ((o, p) :: rest) st =
        (.error e,
         (calculateChange cur cfg (mathRound (o * 100)) (mathRound (p * 100)) st).2)) ∧
    (∀ r, (calculateChange cur cfg (mathRound (o * 100)) (mathRound (p * 100)) st).1 =
        .ok r →
      processTransactions cur cfg ((o, p) :: rest) st =
        ((processTransactions cur cfg rest
            (calculateChange cur cfg (mathRound (o * 100)) (mathRound (p * 100)) st).2).1.map
          (fun outs => r.formattedOutput :: outs),
         (processTransactions cur cfg rest
            (calculateChange cur cfg (mathRound (o * 100)) (mathRound (p * 100)) st).2).2)) := by
  have hlen : ∀ (ps : List (ℚ × ℚ)) (st0 : CalcState) outs st1,
      processTransactions cur cfg ps st0 = (.ok outs, st1) → outs.length = ps.length := by
    intro ps
    induction ps with
    | nil =>
      intro st0 outs st1 h
      simp only [processTransactions] at h
      have : ([] : List String) = outs := by
        have := congrArg Prod.fst h
        simpa using this
      rw [← this]
      rfl
    | cons pr tl ih =>
      obtain ⟨o2, p2⟩ := pr
      intro st0 outs st1 h
      cases hc : (calculateChange cur cfg (mathRound (o2 * 100)) (mathRound (p2 * 100)) st0).1 with
      | error e =>
        simp only [processTransactions, hc] at h
        have := congrArg Prod.fst h
        simp at this
      | ok r =>
        cases hc2 : (processTransactions cur cfg tl
            (calculateChange cur cfg (mathRound (o2 * 100)) (mathRound (p2 * 100)) st0).2).1 with
        | error e =>
          simp only [processTransactions, hc, hc2] at h
          have := congrArg Prod.fst h
          simp at this
        | ok outs2 =>
          simp only [processTransactions, hc, hc2] at h
          have hfst := congrArg Prod.fst h
          simp only at hfst
          have houts : r.formattedOutput :: outs2 = outs := by simpa using hfst
          have hrec := ih _ outs2 _ (Prod.ext hc2 rfl)
          rw [← houts]
          simp [hrec]
  refine ⟨rfl, hlen pairs st, ?_, ?_⟩
  · intro e he
    simp only [processTransactions, he]
  · intro r hr
    cases hc2 : (processTransactions cur cfg rest
        (calculateChange cur cfg (mathRound (o * 100)) (mathRound (p * 100)) st).2).1 with
    | error e => simp only [processTransactions, hr, hc2, Except.map]
    | ok outs2 => simp only [processTransactions, hr, hc2, Except.map]

/-- Witness for C8: the spec's three-pair batch evaluates to the three
expected formatted lines in order (the middle pair takes the randomized path
under the seeded generator), and the amended theorem's length contract holds
for it. -/
theorem processTransactions_batch_witness :
    (processTransactions US_CURRENCY demoRule
        [(212 / 100, 3), (197 / 100, 2), (333 / 100, 5)] demoState).1 =
      .ok ["3 quarters,1 dime,3 pennies", "3 pennies",
        "1 dollar,2 quarters,1 dime,1 nickel,2 pennies"] ∧
    (["3 quarters,1 dime,3 pennies", "3 pennies",
      "1 dollar,2 quarters,1 dime,1 nickel,2 pennies"] : List String).length =
      ([(212 / 100, 3), (197 / 100, 2), (333 / 100, 5)] : List (ℚ × ℚ)).length := by
  have h1 : (processTransactions US_CURRENCY demoRule
      [(212 / 100, 3), (197 / 100, 2), (333 / 100, 5)] demoState).1 =
      .ok ["3 quarters,1 dime,3 pennies", "3 pennies",
        "1 dollar,2 quarters,1 dime,1 nickel,2 pennies"] := by
    with_unfolding_all decide
  refine ⟨h1, ?_⟩
  exact (processTransactions_batch US_CURRENCY demoRule
      [(212 / 100, 3), (197 / 100, 2), (333 / 100, 5)] demoState 0 0 []).2.1
    _ _ (Prod.ext h1 rfl)

/-! ### C9: formatted output -/

/-- Counterexample to C9 as stated: for change 10 the greedy result holds one
dime and the code renders the singular `"1 dime"`, while the claim's
unconditional pluralization rule would render `"1 dimes"`. -/
theorem formatOutput_counterexample :
    (greedyCalculateChange (demoTx 10) US_CURRENCY).formattedOutput = "1 dime" ∧
    specFormatAlwaysPlural (greedyCalculateChange (demoTx 10) US_CURRENCY).denominations =
      "1 dimes" ∧
    (greedyCalculateChange (demoTx 10) US_CURRENCY).formattedOutput ≠
      specFormatAlwaysPlural (greedyCalculateChange (demoTx 10) US_CURRENCY).denominations := by
  refine ⟨?_, ?_, ?_⟩ <;> decide

theorem formatParts_eq (m : DenomMap) :
    formatParts m = (m.filter (fun e => decide (0 < e.2))).map
      (fun e => toString e.2 ++ " " ++ (if e.2 = 1 then e.1 else pluralize e.1)) := by
  induction m with
  | nil => rfl
  | cons e rest ih =>
    obtain ⟨name, count⟩ := e
    by_cases h : 0 < count
    · simp [formatParts, List.filter_cons, h, ih]
    · simp [formatParts, List.filter_cons, h, ih]

/-- C9 (amended: a count of 1 renders the singular name; pluralization
applies to counts other than 1).  Both strategies share this formatter:
entries in insertion order, `"<count> <name>"` with `s` appended except
`penny → pennies`, comma-joined without spaces, zero counts omitted, the
empty mapping rendering as the empty string; the US change-88 scenario
renders as `"3 quarters,1 dime,3 pennies"`. -/
theorem formatOutput_spec (m : DenomMap) (name : String) :
    formatOutput m = String.intercalate ","
      ((m.filter (fun e => decide (0 < e.2))).map
        (fun e => toString e.2 ++ " " ++ (if e.2 = 1 then e.1 else pluralize e.1))) ∧
    pluralize "penny" = "pennies" ∧
    (name ≠ "penny" → pluralize name = name ++ "s") ∧
    formatOutput [] = "" ∧
    (greedyCalculateChange (demoTx 88) US_CURRENCY).formattedOutput =
      "3 quarters,1 dime,3 pennies" := by
  refine ⟨?_, rfl, ?_, rfl, by decide⟩
  · rw [formatOutput, formatParts_eq]
  · intro h
    simp [pluralize, h]

/-- Witness for C9: pluralization instantiated at the regular name "dime". -/
theorem formatOutput_spec_witness :
    pluralize "dime" = "dime" ++ "s" ∧
    formatOutput [("dime", 1)] = "1 dime" :=
  ⟨(formatOutput_spec [] "dime").2.2.1 (by decide), by decide⟩

/-! ### C10: seeded determinism -/

/-- Counterexample to C10 as stated: two coexisting instances seeded with the
same seed 6 and given the identical call sequence (one call: change 175, US
table) produce different ChangeResults, because the seeded override is a
process-global monkey-patch and A's draws advance the stream B then
continues. -/
theorem seeded_replay_counterexample :
    cexA.1.denominations = [("dollar", 1), ("quarter", 3)] ∧
    cexB.1.denominations = [("dollar", 1), ("quarter", 2), ("dime", 2), ("nickel", 1)] ∧
    cexA.1 ≠ cexB.1 := by
  refine ⟨?_, ?_, ?_⟩ <;> with_unfolding_all decide

theorem mathRandom_WEq (w w2 : RandomSource) (h : WEq w w2) :
    (mathRandom w).1 = (mathRandom w2).1 ∧ WEq (mathRandom w).2 (mathRandom w2).2 := by
  obtain ⟨hs, hsome⟩ := h
  cases hw : w.seeded with
  | none => rw [hw] at hsome; simp at hsome
  | some s =>
    have hw2 : w2.seeded = some s := by rw [← hs, hw]
    refine ⟨by simp [mathRandom, hw, hw2], ?_, ?_⟩
    · simp [mathRandom, hw, hw2]
    · simp [mathRandom, hw]

theorem genBiasLargerLoop_WEq :
    ∀ (ds : List Denomination) (r : Int) (acc : DenomMap) (w w2 : RandomSource), WEq w w2 →
      (genBiasLargerLoop ds r acc w).1 = (genBiasLargerLoop ds r acc w2).1 ∧
      WEq (genBiasLargerLoop ds r acc w).2 (genBiasLargerLoop ds r acc w2).2 := by
  intro ds
  induction ds with
  | nil => intro r acc w w2 h; exact ⟨rfl, h⟩
  | cons d rest ih =>
    intro r acc w w2 h
    obtain ⟨hr1, hr2⟩ := mathRandom_WEq w w2 h
    by_cases hrem : 0 < r
    · by_cases hm : 0 < Int.fdiv r d.valueInCents
      · simp only [genBiasLargerLoop, if_pos hrem, if_pos hm]
        rw [hr1]
        split_ifs with hc
        · exact ih _ _ _ _ hr2
        · exact ih _ _ _ _ hr2
      · simp only [genBiasLargerLoop, if_pos hrem, if_neg hm]
        exact ih _ _ _ _ h
    · simp only [genBiasLargerLoop, if_neg hrem]
      exact ⟨by trivial, h⟩

theorem genUniformLoop_WEq :
    ∀ (ds : List Denomination) (r : Int) (acc : DenomMap) (w w2 : RandomSource), WEq w w2 →
      (genUniformLoop ds r acc w).1 = (genUniformLoop ds r acc w2).1 ∧
      WEq (genUniformLoop ds r acc w).2 (genUniformLoop ds r acc w2).2 := by
  intro ds
  induction ds with
  | nil => intro r acc w w2 h; exact ⟨rfl, h⟩
  | cons d rest ih =>
    intro r acc w w2 h
    obtain ⟨hr1, hr2⟩ := mathRandom_WEq w w2 h
    by_cases hrem : 0 < r
    · by_cases hm : 0 < Int.fdiv r d.valueInCents
      · simp only [genUniformLoop, if_pos hrem, if_pos hm]
        rw [hr1]
        split_ifs with hc
        · exact ih _ _ _ _ hr2
        · exact ih _ _ _ _ hr2
      · simp only [genUniformLoop, if_pos hrem, if_neg hm]
        exact ih _ _ _ _ h
    · simp only [genUniformLoop, if_neg hrem]
      exact ⟨by trivial, h⟩

theorem genBiasSmallerLoop_WEq :
    ∀ (ds : List Denomination) (r : Int) (acc : DenomMap) (w w2 : RandomSource), WEq w w2 →
      (genBiasSmallerLoop ds r acc w).1 = (genBiasSmallerLoop ds r acc w2).1 ∧
      WEq (genBiasSmallerLoop ds r acc w).2 (genBiasSmallerLoop ds r acc w2).2 := by
  intro ds
  induction ds with
  | nil => intro r acc w w2 h; exact ⟨rfl, h⟩
  | cons d rest ih =>
    intro r acc w w2 h
    obtain ⟨hr1, hr2⟩ := mathRandom_WEq w w2 h
    obtain ⟨hs1, hs2⟩ := mathRandom_WEq (mathRandom w).2 (mathRandom w2).2 hr2
    by_cases hm : 0 < Int.fdiv r d.valueInCents
    · simp only [genBiasSmallerLoop, if_pos hm]
      rw [hr1, hs1]
      split_ifs <;> exact ih _ _ _ _ hs2
    · simp only [genBiasSmallerLoop, if_neg hm]
      exact ih _ _ _ _ h

theorem tryAttempts_WEq
    (heuristic : Int → List Denomination → RandomSource → DenomMap × RandomSource)
    (c : Int) (sorted : List Denomination) (cur : Currency)
    (hresp : ∀ w w2, WEq w w2 →
      (heuristic c sorted w).1 = (heuristic c sorted w2).1 ∧
      WEq (heuristic c sorted w).2 (heuristic c sorted w2).2) :
    ∀ (n : Nat) (w w2 : RandomSource), WEq w w2 →
      (tryAttempts heuristic c sorted cur n w).1 =
        (tryAttempts heuristic c sorted cur n w2).1 ∧
      WEq (tryAttempts heuristic c sorted cur n w).2
        (tryAttempts heuristic c sorted cur n w2).2 := by
  intro n
  induction n with
  | zero => intro w w2 h; exact ⟨rfl, h⟩
  | succ n ih =>
    intro w w2 h
    obtain ⟨e1, h1⟩ := hresp w w2 h
    have hs : ∀ w0 : RandomSource, tryAttempts heuristic c sorted cur (n + 1) w0 =
        if isValidCombination (heuristic c sorted w0).1 c cur = true then
          (some (heuristic c sorted w0).1, (heuristic c sorted w0).2)
        else tryAttempts heuristic c sorted cur n (heuristic c sorted w0).2 :=
      fun w0 => rfl
    rw [hs w, hs w2, e1]
    split_ifs with hv
    · exact ⟨rfl, h1⟩
    · exact ih _ _ h1

theorem gen_WEq (c : Int) (cur : Currency) (w w2 : RandomSource) (h : WEq w w2) :
    (generateOptimizedRandomCombination c cur w).1 =
      (generateOptimizedRandomCombination c cur w2).1 ∧
    WEq (generateOptimizedRandomCombination c cur w).2
      (generateOptimizedRandomCombination c cur w2).2 := by
  have hrespL : ∀ wa wb, WEq wa wb →
      (generateRandomWithBiasTowardsLarger c (sortByValueDesc cur.denominations) wa).1 =
        (generateRandomWithBiasTowardsLarger c (sortByValueDesc cur.denominations) wb).1 ∧
      WEq (generateRandomWithBiasTowardsLarger c (sortByValueDesc cur.denominations) wa).2
        (generateRandomWithBiasTowardsLarger c (sortByValueDesc cur.denominations) wb).2 :=
    fun wa wb hab => genBiasLargerLoop_WEq _ _ _ _ _ hab
  have hrespU : ∀ wa wb, WEq wa wb →
      (generateRandomWithUniformDistribution c (sortByValueDesc cur.denominations) wa).1 =
        (generateRandomWithUniformDistribution c (sortByValueDesc cur.denominations) wb).1 ∧
      WEq (generateRandomWithUniformDistribution c (sortByValueDesc cur.denominations) wa).2
        (generateRandomWithUniformDistribution c (sortByValueDesc cur.denominations) wb).2 :=
    fun wa wb hab => genUniformLoop_WEq _ _ _ _ _ hab
  have hrespS : ∀ wa wb, WEq wa wb →
      (generateRandomWithBiasTowardsSmaller c (sortByValueDesc cur.denominations) wa).1 =
        (generateRandomWithBiasTowardsSmaller c (sortByValueDesc cur.denominations) wb).1 ∧
      WEq (generateRandomWithBiasTowardsSmaller c (sortByValueDesc cur.denominations) wa).2
        (generateRandomWithBiasTowardsSmaller c (sortByValueDesc cur.denominations) wb).2 :=
    fun wa wb hab => genBiasSmallerLoop_WEq _ _ _ _ _ hab
  obtain ⟨a1eq, a1w⟩ := tryAttempts_WEq generateRandomWithBiasTowardsLarger c
    (sortByValueDesc cur.denominations) cur hrespL attemptsPerHeuristic w w2 h
  cases ha : (tryAttempts generateRandomWithBiasTowardsLarger c
      (sortByValueDesc cur.denominations) cur attemptsPerHeuristic w).1 with
  | some c1 =>
    have ha2 : (tryAttempts generateRandomWithBiasTowardsLarger c
        (sortByValueDesc cur.denominations) cur attemptsPerHeuristic w2).1 = some c1 := by
      rw [← a1eq]; exact ha
    have hd1 : generateOptimizedRandomCombination c cur w =
        tryAttempts generateRandomWithBiasTowardsLarger c
          (sortByValueDesc cur.denominations) cur attemptsPerHeuristic w := by
      simp only [generateOptimizedRandomCombination, ha]
    have hd2 : generateOptimizedRandomCombination c cur w2 =
        tryAttempts generateRandomWithBiasTowardsLarger c
          (sortByValueDesc cur.denominations) cur attemptsPerHeuristic w2 := by
      simp only [generateOptimizedRandomCombination, ha2]
    rw [hd1, hd2]
    exact ⟨a1eq, a1w⟩
  | none =>
    have ha2 : (tryAttempts generateRandomWithBiasTowardsLarger c
        (sortByValueDesc cur.denominations) cur attemptsPerHeuristic w2).1 = none := by
      rw [← a1eq]; exact ha
    obtain ⟨a2eq, a2w⟩ := tryAttempts_WEq generateRandomWithUniformDistribution c
      (sortByValueDesc cur.denominations) cur hrespU attemptsPerHeuristic _ _ a1w
    cases hb : (tryAttempts generateRandomWithUniformDistribution c
        (sortByValueDesc cur.denominations) cur attemptsPerHeuristic
        (tryAttempts generateRandomWithBiasTowardsLarger c
          (sortByValueDesc cur.denominations) cur attemptsPerHeuristic w).2).1 with
    | some c2 =>
      have hb2 : (tryAttempts generateRandomWithUniformDistribution c
          (sortByValueDesc cur.denominations) cur attemptsPerHeuristic
          (tryAttempts generateRandomWithBiasTowardsLarger c
            (sortByValueDesc cur.denominations) cur attemptsPerHeuristic w2).2).1 =
          some c2 := by
        rw [← a2eq]; exact hb
      have hd1 : generateOptimizedRandomCombination c cur w =
          tryAttempts generateRandomWithUniformDistribution c
            (sortByValueDesc cur.denominations) cur attemptsPerHeuristic
            (tryAttempts generateRandomWithBiasTowardsLarger c
              (sortByValueDesc cur.denominations) cur attemptsPerHeuristic w).2 := by
        simp only [generateOptimizedRandomCombination, ha, hb]
      have hd2 : generateOptimizedRandomCombination c cur w2 =
          tryAttempts generateRandomWithUniformDistribution c
            (sortByValueDesc cur.denominations) cur attemptsPerHeuristic
            (tryAttempts generateRandomWithBiasTowardsLarger c
              (sortByValueDesc cur.denominations) cur attemptsPerHeuristic w2).2 := by
        simp only [generateOptimizedRandomCombination, ha2, hb2]
      rw [hd1, hd2]
      exact ⟨a2eq, a2w⟩
    | none =>
      have hb2 : (tryAttempts generateRandomWithUniformDistribution c
          (sortByValueDesc cur.denominations) cur attemptsPerHeuristic
          (tryAttempts generateRandomWithBiasTowardsLarger c
            (sortByValueDesc cur.denominations) cur attemptsPerHeuristic w2).2).1 = none := by
        rw [← a2eq]; exact hb
      obtain ⟨a3eq, a3w⟩ := tryAttempts_WEq generateRandomWithBiasTowardsSmaller c
        (sortByValueDesc cur.denominations) cur hrespS attemptsPerHeuristic _ _ a2w
      have hd1 : generateOptimizedRandomCombination c cur w =
          tryAttempts generateRandomWithBiasTowardsSmaller c
            (sortByValueDesc cur.denominations) cur attemptsPerHeuristic
            (tryAttempts generateRandomWithUniformDistribution c
              (sortByValueDesc cur.denominations) cur attemptsPerHeuristic
              (tryAttempts generateRandomWithBiasTowardsLarger c
                (sortByValueDesc cur.denominations) cur attemptsPerHeuristic w).2).2 := by
        simp only [generateOptimizedRandomCombination, ha, hb]
      have hd2 : generateOptimizedRandomCombination c cur w2 =
          tryAttempts generateRandomWithBiasTowardsSmaller c
            (sortByValueDesc cur.denominations) cur attemptsPerHeuristic
            (tryAttempts generateRandomWithUniformDistribution c
              (sortByValueDesc cur.denominations) cur attemptsPerHeuristic
              (tryAttempts generateRandomWithBiasTowardsLarger c
                (sortByValueDesc cur.denominations) cur attemptsPerHeuristic w2).2).2 := by
        simp only [generateOptimizedRandomCombination, ha2, hb2]
      rw [hd1, hd2]
      exact ⟨a3eq, a3w⟩

theorem randCalculateChange_StEq (t : Transaction) (c : Currency) (st st2 : RandState)
    (h : StEq st st2) :
    (randCalculateChange t c st).1 = (randCalculateChange t c st2).1 ∧
    StEq (randCalculateChange t c st).2 (randCalculateChange t c st2).2 := by
  obtain ⟨hc, hw⟩ := h
  cases hl : mapLookup (mkCacheKey t.changeInCents c.code) st.cache with
  | some m =>
    have hl2 : mapLookup (mkCacheKey t.changeInCents c.code) st2.cache = some m := by
      rw [← hc]; exact hl
    have e1 : randCalculateChange t c st =
        (ChangeResult.mk t.changeInCents (mapCopy m) (formatOutput m), st) := by
      simp [randCalculateChange, hl]
    have e2 : randCalculateChange t c st2 =
        (ChangeResult.mk t.changeInCents (mapCopy m) (formatOutput m), st2) := by
      simp [randCalculateChange, hl2]
    rw [e1, e2]
    exact ⟨rfl, hc, hw⟩
  | none =>
    have hl2 : mapLookup (mkCacheKey t.changeInCents c.code) st2.cache = none := by
      rw [← hc]; exact hl
    obtain ⟨geq, gw⟩ := gen_WEq t.changeInCents c st.world st2.world hw
    cases hg : (generateOptimizedRandomCombination t.changeInCents c st.world).1 with
    | none =>
      have hg2 : (generateOptimizedRandomCombination t.changeInCents c st2.world).1 = none := by
        rw [← geq]; exact hg
      have e1 : randCalculateChange t c st = (greedyCalculateChange t c,
          RandState.mk st.cache (generateOptimizedRandomCombination t.changeInCents c
            st.world).2) := by
        simp [randCalculateChange, hl, hg]
      have e2 : randCalculateChange t c st2 = (greedyCalculateChange t c,
          RandState.mk st2.cache (generateOptimizedRandomCombination t.changeInCents c
            st2.world).2) := by
        simp [randCalculateChange, hl2, hg2]
      rw [e1, e2]
      exact ⟨rfl, hc, gw⟩
    | some best =>
      have hg2 : (generateOptimizedRandomCombination t.changeInCents c st2.world).1 =
          some best := by
        rw [← geq]; exact hg
      have e1 : randCalculateChange t c st =
          (ChangeResult.mk t.changeInCents best (formatOutput best),
           RandState.mk (cacheResult (mkCacheKey t.changeInCents c.code) best st.cache)
             (generateOptimizedRandomCombination t.changeInCents c st.world).2) := by
        simp [randCalculateChange, hl, hg]
      have e2 : randCalculateChange t c st2 =
          (ChangeResult.mk t.changeInCents best (formatOutput best),
           RandState.mk (cacheResult (mkCacheKey t.changeInCents c.code) best st2.cache)
             (generateOptimizedRandomCombination t.changeInCents c st2.world).2) := by
        simp [randCalculateChange, hl2, hg2]
      rw [e1, e2]
      exact ⟨rfl, by rw [hc], gw⟩

theorem runCalls_StEq :
    ∀ (calls : List (Transaction × Currency)) (st st2 : RandState), StEq st st2 →
      (runCalls calls st).1 = (runCalls calls st2).1 ∧
      StEq (runCalls calls st).2 (runCalls calls st2).2 := by
  intro calls
  induction calls with
  | nil => intro st st2 h; exact ⟨rfl, h⟩
  | cons pr rest ih =>
    obtain ⟨t, c⟩ := pr
    intro st st2 h
    obtain ⟨e1, h1⟩ := randCalculateChange_StEq t c st st2 h
    obtain ⟨e2, h2⟩ := ih _ _ h1
    constructor
    · show (randCalculateChange t c st).1 :: (runCalls rest (randCalculateChange t c st).2).1 =
        (randCalculateChange t c st2).1 :: (runCalls rest (randCalculateChange t c st2).2).1
      rw [e1, e2]
    · exact h2

/-- C10 (amended: the draw sequence is pinned by the seed only while no other
consumer shares the globally monkey-patched generator; two identically seeded
instances given identical call sequences produce identical results when their
executions are not interleaved through that shared generator — equivalently,
in separate runs).  Formally: a freshly constructed seeded instance's outputs
over any call sequence do not depend on the pre-existing generator state. -/
theorem seeded_replay_pinned (seed : Int) (calls : List (Transaction × Currency))
    (w w2 : RandomSource) :
    (runCalls calls (RandState.mk [] (setupSeededRandom seed w))).1 =
      (runCalls calls (RandState.mk [] (setupSeededRandom seed w2))).1 :=
  (runCalls_StEq calls (RandState.mk [] (setupSeededRandom seed w))
    (RandState.mk [] (setupSeededRandom seed w2)) ⟨rfl, rfl, rfl⟩).1

end CashRegister
